import Mathlib

/-!
# Tinychain: block types, commit pipeline, route table, bucket tree

A shallow embedding of `core/types/block.go`, `core/executor/commit.go` and
`p2p/route_table.go`, with the properties of the commit pipeline, of the block
digest and of the peer limit stated over it. The Bucket Merkle Tree of
`core/bmt`, of which only the test file is at hand, is modelled from the
specification.

Conventions.
* Go pointers are taken to be non-nil unless a definition says otherwise.
* Packages that the embedded files call but that are not part of them (the
  `db` store, the chain, the state, the event bus, `encoding/json`, libp2p) are
  parameters: each call is appended to a trace of calls, and the value the call
  returns is given by a function of the calls made so far.
* A Go panic is the outer `none` of an `Option` result.
* A `go` statement is a call of its own in the trace; the call it starts takes
  effect at some later point (`schedules`).
-/

namespace Tinychain

/-! ## core/types/block.go -/

/-- A byte. -/
abbrev Byte := Fin 256

/-- A `common.Hash`: 32 bytes. -/
structure Hash where
  bytes : List Byte
  len : bytes.length = 32
deriving DecidableEq

/-- The zero value of `common.Hash` (`var nilHash common.Hash`). -/
def nilHash : Hash := ⟨List.replicate 32 0, by simp⟩

/-- The hash whose last byte is `n` and whose other bytes are zero; used to
write sample digests. -/
def Hash.ofNat (n : Nat) : Hash := ⟨List.replicate 31 0 ++ [Fin.ofNat n], by simp⟩

/-- A `common.Address`, kept as its bytes. -/
abbrev Address := List Byte

/-- The type `BNonce`, `[8]byte`. -/
abbrev BNonce := { l : List Byte // l.length = 8 }

/-- Transactions are used by the embedded code only through `Hash()`; the
record itself is kept as an uninterpreted number. -/
structure Transaction where
  raw : Nat
deriving DecidableEq, Repr

/-- Receipts are passed through to the store untouched. -/
structure Receipt where
  raw : Nat
deriving DecidableEq, Repr

/-- The struct `Header`; `*big.Int` fields may be nil. -/
structure Header where
  ParentHash : Hash
  Height : Option Int
  Difficulty : Option Int
  Root : Hash
  Miner : Address
  Extra : List Byte
  Nonce : BNonce
  Time : Int
deriving DecidableEq

/-- The two library functions `Header.Hash` is built from: `json.Marshal` on a
header (bytes and error) and `common.Sha256`. -/
structure Codec where
  Marshal : Header → List Byte × Option Nat
  Sha256 : List Byte → Hash

/-- The method `Header.Hash`: the digest of the JSON bytes; the marshalling
error is dropped. -/
def Header.Hash (c : Codec) (hd : Header) : Hash :=
  let data := (c.Marshal hd).1
  let hash := c.Sha256 data
  hash

/-- The struct `Block`. The field `hash` is the `atomic.Value`: `none` until a
value is stored. -/
structure Block where
  Header : Header
  Transactions : List Transaction
  hash : Option Hash
  TD : Option Int
deriving DecidableEq

/-- The constructor `NewBlock`: sets header and transactions, stores the header
hash; the argument `td` is not used. -/
def NewBlock (c : Codec) (header : Header) (txs : List Transaction) (_td : Option Int) : Block :=
  { Header := header, Transactions := txs, hash := some (header.Hash c), TD := none }

/-- The method `Block.Hash`: `bl.hash.Load().(common.Hash)`. Loading an
`atomic.Value` that was never stored gives nil and the type assertion panics:
the result is `none`. -/
def Block.Hash (bl : Block) : Option Hash :=
  bl.hash

/-! ## core/executor/commit.go -/

/-- Go `error` values seen by the executor. -/
inductive Err where
  | errReceiptNumInvalid
  | other (code : Nat)
deriving DecidableEq, Repr

/-- The calls the commit pipeline makes on its collaborators. A call that takes
`db.GetBatch(ex.db.LDB(), height)` as its batch carries that `height`.
`GoPost` is the statement `go ex.event.Post(...)`: it starts a goroutine and
returns at once. `Post` is the call of `ex.event.Post` inside that goroutine; it
never stands in the trace of `commit`, only in the runs of `schedules`. -/
inductive Call where
  | PutTxMetas (height : Nat) (txs : List Transaction) (blockHash : Hash)
  | PutReceipt (height : Nat) (txHash : Hash) (rp : Receipt)
  | StateCommit (height : Nat)
  | CommitBlock (height : Nat) (block : Block)
  | CommitBatch (height : Nat)
  | GoPost (block : Block)
  | Post (block : Block)
  | ResetVersion
deriving DecidableEq

/-- The lines written through `log`. -/
inductive LogMsg where
  | failedTxMetas (err : Err)
  | failedReceipts (err : Err)
  | failedState (err : Err)
  | failedBlock (err : Err)
  | failedBatch (err : Err)
  | newBlockCommits (height : Nat) (hash : Hash)
deriving DecidableEq

/-- The collaborators of the executor. Each function gives what the call
returns after the calls made so far (first argument). `Height` is
`block.Height()` and `TxHash` is `tx.Hash()`, neither of which is in
`block.go`. -/
structure Env where
  Height : Block → Nat
  TxHash : Transaction → Hash
  PutTxMetas : List Call → Nat → List Transaction → Hash → Option Err
  PutReceipt : List Call → Nat → Hash → Receipt → Option Err
  StateCommit : List Call → Nat → Hash × Option Err
  CommitBlock : List Call → Nat → Block → Option Err
  CommitBatch : List Call → Nat → Option Err

/-- The part of `Executor` that `commit` reads and writes: the receipts cache
(a `sync.Map` from height to receipts), the calls made so far, and the log. -/
structure Executor where
  receiptsCache : Nat → Option (List Receipt)
  trace : List Call
  logs : List LogMsg

/-- Append a call to the trace. -/
def Executor.record (ex : Executor) (c : Call) : Executor :=
  { ex with trace := ex.trace ++ [c] }

/-- Append a line to the log. -/
def Executor.log (ex : Executor) (m : LogMsg) : Executor :=
  { ex with logs := ex.logs ++ [m] }

/-- The method `receiptsCache.Delete`. -/
def Executor.cacheDelete (ex : Executor) (height : Nat) : Executor :=
  { ex with receiptsCache := fun k => if k = height then none else ex.receiptsCache k }

/-- The method `Executor.stateCommit`. -/
def stateCommit (env : Env) (ex : Executor) (height : Nat) : (Hash × Option Err) × Executor :=
  (env.StateCommit ex.trace height, ex.record (Call.StateCommit height))

/-- The method `Executor.persistTxs`; `block.Hash()` may panic. -/
def persistTxs (env : Env) (ex : Executor) (block : Block) : Option (Option Err × Executor) :=
  match block.Hash with
  | none => none
  | some bh =>
    some (env.PutTxMetas ex.trace (env.Height block) block.Transactions bh,
      ex.record (Call.PutTxMetas (env.Height block) block.Transactions bh))

/-- The loop of `persistReceipts`, from index `idx` over the receipts that are
left; `txs[idx]` out of range panics. -/
def persistReceiptsLoop (env : Env) (txs : List Transaction) (height : Nat) :
    Nat → List Receipt → Executor → Option (Option Err × Executor)
  | _, [], ex => some (none, ex)
  | idx, rp :: rest, ex =>
    match txs[idx]? with
    | none => none
    | some tx =>
      match env.PutReceipt ex.trace height (env.TxHash tx) rp with
      | some err => some (some err, ex.record (Call.PutReceipt height (env.TxHash tx) rp))
      | none =>
        persistReceiptsLoop env txs height (idx + 1) rest
          (ex.record (Call.PutReceipt height (env.TxHash tx) rp))

/-- The method `Executor.persistReceipts`. -/
def persistReceipts (env : Env) (ex : Executor) (txs : List Transaction)
    (receipts : List Receipt) (height : Nat) : Option (Option Err × Executor) :=
  if txs.length ≠ receipts.length then
    some (some Err.errReceiptNumInvalid, ex)
  else
    persistReceiptsLoop env txs height 0 receipts ex

/-- The method `Executor.commitBlock`. -/
def commitBlock (env : Env) (ex : Executor) (block : Block) : Option Err × Executor :=
  (env.CommitBlock ex.trace (env.Height block) block,
    ex.record (Call.CommitBlock (env.Height block) block))

/-- The receipts step of `commit`: when the cache holds an entry for the height,
persist it and delete the entry; an error is logged and returned. -/
def commitReceipts (env : Env) (ex : Executor) (block : Block) :
    Option (Option Err × Executor) :=
  match ex.receiptsCache (env.Height block) with
  | none => some (none, ex)
  | some receipts =>
    match persistReceipts env ex block.Transactions receipts (env.Height block) with
    | none => none
    | some (some err, ex1) => some (some err, ex1.log (LogMsg.failedReceipts err))
    | some (none, ex1) => some (none, ex1.cacheDelete (env.Height block))

/-- The tail of `commit` from the state commit on. After the flush it runs the
statement `go ex.event.Post(...)`, recorded as `GoPost`, then `resetVersion`,
and returns nil; the goroutine posts the event on its own time. -/
def commitState (env : Env) (ex : Executor) (block : Block) :
    Option (Option Err × Executor) :=
  match stateCommit env ex (env.Height block) with
  | ((_, some err), ex3) => some (some err, ex3.log (LogMsg.failedState err))
  | ((_, none), ex3) =>
    match commitBlock env ex3 block with
    | (some err, ex4) => some (some err, ex4.log (LogMsg.failedBlock err))
    | (none, ex4) =>
      match env.CommitBatch ex4.trace (env.Height block) with
      | some err =>
        some (some err,
          (ex4.record (Call.CommitBatch (env.Height block))).log (LogMsg.failedBatch err))
      | none =>
        match block.Hash with
        | none => none
        | some bh =>
          some (none,
            ((((ex4.record (Call.CommitBatch (env.Height block))).log
              (LogMsg.newBlockCommits (env.Height block) bh)).record
              (Call.GoPost block)).record Call.ResetVersion))

/-- The method `Executor.commit`. -/
def commit (env : Env) (ex : Executor) (block : Block) : Option (Option Err × Executor) :=
  match persistTxs env ex block with
  | none => none
  | some (some err, ex1) => some (some err, ex1.log (LogMsg.failedTxMetas err))
  | some (none, ex1) =>
    match commitReceipts env ex1 block with
    | none => none
    | some (some err, ex2) => some (some err, ex2)
    | some (none, ex2) => commitState env ex2 block

/-- The calls on the store, the state and the chain: everything but the `go`
statement, the `Post` of the goroutine and `resetVersion`. -/
def Call.isStoreCall : Call → Bool
  | Call.PutTxMetas _ _ _ => true
  | Call.PutReceipt _ _ _ => true
  | Call.StateCommit _ => true
  | Call.CommitBlock _ _ => true
  | Call.CommitBatch _ => true
  | Call.GoPost _ => false
  | Call.Post _ => false
  | Call.ResetVersion => false

/-- The lists that have `x` at one more place than `l`. -/
def insertions (x : Call) : List Call → List (List Call)
  | [] => [[x]]
  | y :: ys => (x :: y :: ys) :: (insertions x ys).map (fun r => y :: r)

/-- The runs of a trace: the orders in which its calls can take effect. Every
call keeps its place, except that the `Post` of a goroutine started by `GoPost`
takes effect at any point after the `go` statement: right away, between two
later calls, or after the last of them (so possibly after `commit` has
returned). -/
def schedules : List Call → List (List Call)
  | [] => [[]]
  | Call.GoPost b :: rest => (schedules rest).flatMap (insertions (Call.Post b))
  | Call.PutTxMetas h txs bh :: rest => (schedules rest).map (fun r => Call.PutTxMetas h txs bh :: r)
  | Call.PutReceipt h th rp :: rest => (schedules rest).map (fun r => Call.PutReceipt h th rp :: r)
  | Call.StateCommit h :: rest => (schedules rest).map (fun r => Call.StateCommit h :: r)
  | Call.CommitBlock h b :: rest => (schedules rest).map (fun r => Call.CommitBlock h b :: r)
  | Call.CommitBatch h :: rest => (schedules rest).map (fun r => Call.CommitBatch h :: r)
  | Call.Post b :: rest => (schedules rest).map (fun r => Call.Post b :: r)
  | Call.ResetVersion :: rest => (schedules rest).map (fun r => Call.ResetVersion :: r)

/-- The `PutReceipt` calls that persisting `receipts` against `txs` makes, in
index order: `receipts[i]` under `txs[i].Hash()`. -/
def receiptCalls (env : Env) (height : Nat) (txs : List Transaction)
    (receipts : List Receipt) : List Call :=
  List.zipWith (fun tx rp => Call.PutReceipt height (env.TxHash tx) rp) txs receipts

/-! ## p2p/route_table.go -/

/-- A `peer.ID` (a Go string). -/
abbrev PeerID := String

/-- A `ma.Multiaddr`, kept as its text. -/
abbrev Multiaddr := String

/-- What `route_table.go` takes from libp2p and does not define itself: the
base58 form of a peer id and its decoder, the multiaddr parser (`none` is an
error), and `kbucket.RoutingTable.Update`, given as the peers of the routing
table after the call. -/
structure Lib where
  Pretty : PeerID → String
  IDB58Decode : String → Option PeerID
  NewMultiaddr : String → Option Multiaddr
  Update : List PeerID → PeerID → List PeerID

/-- The fields of `RouteTable` that the peer operations use. The peer store is
the address book of libp2p: one entry per peer, with the addresses held for it
(possibly none); the routing table is the list of peers in the k-buckets;
`localID` is `table.peer.ID()`. -/
structure RouteTable where
  peerStore : List (PeerID × List Multiaddr)
  routeTable : List PeerID
  maxPeers : Int
  localID : PeerID
deriving DecidableEq

/-- The call `peerStore.Peers()`: the peers that have an entry in the address
book, an entry without address included. -/
def RouteTable.Peers (table : RouteTable) : List PeerID :=
  (table.peerStore.map Prod.fst).dedup

/-- The peers for which the store holds at least one address. -/
def RouteTable.PeersWithAddrs (table : RouteTable) : List PeerID :=
  ((table.peerStore.filter (fun e => decide (e.2 ≠ []))).map Prod.fst).dedup

/-- The calls `peerStore.AddAddrs(pid, addrs, PermanentAddrTTL)` and
`peerStore.SetAddrs(pid, addrs, PermanentAddrTTL)`: both make sure the peer has
an entry, also when `addrs` is empty, and with a positive TTL both leave every
address of `addrs` in it; they differ only in the expiry they record. -/
def storeAddAddrs (store : List (PeerID × List Multiaddr)) (pid : PeerID)
    (addrs : List Multiaddr) : List (PeerID × List Multiaddr) :=
  if pid ∈ store.map Prod.fst then
    store.map (fun e =>
      if e.1 = pid then (e.1, e.2 ++ addrs.filter (fun a => decide (a ∉ e.2))) else e)
  else store ++ [(pid, addrs)]

/-- The call `peerStore.AddAddr(pid, addr, PermanentAddrTTL)`: `AddAddrs` with
the one address. -/
def storeAddAddr (store : List (PeerID × List Multiaddr)) (pid : PeerID) (addr : Multiaddr) :
    List (PeerID × List Multiaddr) :=
  storeAddAddrs store pid [addr]

/-- The call `peerStore.ClearAddrs(pid)`: the entry of the peer is dropped. -/
def storeClearAddrs (store : List (PeerID × List Multiaddr)) (pid : PeerID) :
    List (PeerID × List Multiaddr) :=
  store.filter (fun e => e.1 ≠ pid)

/-- The method `RouteTable.HasPeer`: `routeTable.Find(pid) != ""`. -/
def RouteTable.HasPeer (table : RouteTable) (pid : PeerID) : Bool :=
  decide (pid ∈ table.routeTable)

/-- The method `RouteTable.update`. -/
def RouteTable.update (lib : Lib) (table : RouteTable) (id : PeerID) : RouteTable :=
  { table with routeTable := lib.Update table.routeTable id }

/-- The method `RouteTable.AddPeer`. -/
def RouteTable.AddPeer (lib : Lib) (table : RouteTable) (pid : PeerID) (addr : Multiaddr) :
    RouteTable :=
  if pid = table.localID then table
  else if !table.HasPeer pid && decide ((table.Peers.length : Int) ≥ table.maxPeers) then table
  else
    RouteTable.update lib { table with peerStore := storeAddAddr table.peerStore pid addr } pid

/-- The method `RouteTable.AddPeerWithAddrs`. -/
def RouteTable.AddPeerWithAddrs (lib : Lib) (table : RouteTable) (pid : PeerID)
    (addrs : List Multiaddr) : RouteTable :=
  if pid = table.localID then table
  else if !table.HasPeer pid then
    if (table.Peers.length : Int) ≥ table.maxPeers then table
    else
      RouteTable.update lib
        { table with peerStore := storeAddAddrs table.peerStore pid addrs } pid
  else
    RouteTable.update lib
      { table with peerStore := storeAddAddrs table.peerStore pid addrs } pid

/-- The loop of `AddPeerInfo` that parses the address strings; `none` when one
of them does not parse. -/
def parseAddrs (lib : Lib) : List String → Option (List Multiaddr)
  | [] => some []
  | v :: rest =>
    match lib.NewMultiaddr v with
    | none => none
    | some a =>
      match parseAddrs lib rest with
      | none => none
      | some as => some (a :: as)

/-- The method `RouteTable.AddPeerInfo`; the Boolean is `true` when it returns
an error. -/
def RouteTable.AddPeerInfo (lib : Lib) (table : RouteTable) (prettyID : String)
    (addrStr : List String) : Bool × RouteTable :=
  if prettyID = lib.Pretty table.localID then (false, table)
  else
    match lib.IDB58Decode prettyID with
    | none => (false, table)
    | some pid =>
      if !table.HasPeer pid && decide ((table.Peers.length : Int) ≥ table.maxPeers) then
        (false, table)
      else
        match parseAddrs lib addrStr with
        | none => (true, table)
        | some addrs => (false, table.AddPeerWithAddrs lib pid addrs)

/-- The method `RouteTable.AddPeers`: stops at the first error. -/
def RouteTable.AddPeers (lib : Lib) (table : RouteTable) :
    List (String × List String) → Bool × RouteTable
  | [] => (false, table)
  | v :: rest =>
    match table.AddPeerInfo lib v.1 v.2 with
    | (true, table1) => (true, table1)
    | (false, table1) => RouteTable.AddPeers lib table1 rest

/-- The method `RouteTable.RemovePeer`. -/
def RouteTable.RemovePeer (table : RouteTable) (pid : PeerID) : RouteTable :=
  { table with
    routeTable := table.routeTable.filter (fun p => p ≠ pid)
    peerStore := storeClearAddrs table.peerStore pid }

/-- The state of a route table that its own calls keep: every peer of the
routing table has an entry in the peer store, and the peer store holds at most
`maxPeers` peers. -/
def RouteTable.WithinLimit (table : RouteTable) : Prop :=
  (∀ q, q ∈ table.routeTable → q ∈ table.Peers) ∧
    (table.Peers.length : Int) ≤ table.maxPeers

/-- One call on the route table. -/
inductive PeerOp where
  | AddPeer (pid : PeerID) (addr : Multiaddr)
  | AddPeerWithAddrs (pid : PeerID) (addrs : List Multiaddr)
  | AddPeerInfo (prettyID : String) (addrStr : List String)
  | AddPeers (peers : List (String × List String))
  | RemovePeer (pid : PeerID)
deriving DecidableEq

/-- The table after one call. -/
def RouteTable.apply (lib : Lib) (table : RouteTable) : PeerOp → RouteTable
  | PeerOp.AddPeer pid addr => table.AddPeer lib pid addr
  | PeerOp.AddPeerWithAddrs pid addrs => table.AddPeerWithAddrs lib pid addrs
  | PeerOp.AddPeerInfo prettyID addrStr => (table.AddPeerInfo lib prettyID addrStr).2
  | PeerOp.AddPeers peers => (table.AddPeers lib peers).2
  | PeerOp.RemovePeer pid => table.RemovePeer pid

/-- The table after a sequence of calls. -/
def RouteTable.run (lib : Lib) (table : RouteTable) (ops : List PeerOp) : RouteTable :=
  ops.foldl (RouteTable.apply lib) table

/-! ## core/bmt

Of the package `core/bmt` only `tree_test.go` is at hand. The tree itself is
modelled from the specification (sections 3, 4.A, 4.B, 4.C and 8). -/

/-- Modelled from the spec: the keys of the authenticated map of `core/bmt`
(section 3, strings), as bytes. -/
abbrev Key := List Byte

/-- Modelled from the spec: the byte-value payloads of `core/bmt` (section 3). -/
abbrev Value := List Byte

/-- Modelled from the spec: a bucket of `core/bmt` (section 3), its
`(key, value)` entries. -/
abbrev Bucket := List (Key × Value)

/-- Modelled from the spec: the constants of the tree of `core/bmt`, which the
specification names but does not pin (capacity, fanout, the bucket hash `H`, the
digest, the length prefix of the canonical bucket serialization, the reserved
tombstone payload), and the test `Prepare` applies to an entry of a write-set,
of which the specification says only that a malformed key or value is refused
with `InvalidWriteSet` (section 7). -/
structure BMTParams where
  capacity : Nat
  fanout : Nat
  H : Key → Nat
  digest : List Byte → Hash
  lenPrefix : Nat → List Byte
  tombstone : Value
  malformed : Key → Value → Bool

/-- Modelled from the spec: the order of the entries of a bucket of `core/bmt`
(sections 3 and 4.B), key-ascending lexicographic byte order (strict). -/
def keyLt : Key → Key → Bool
  | [], [] => false
  | [], _ :: _ => true
  | _ :: _, [] => false
  | a :: as, b :: bs => decide (a < b) || (decide (a = b) && keyLt as bs)

/-- Modelled from the spec: the insert or overwrite of an entry of a bucket of
`core/bmt` (4.C, step 2), keeping the keys ascending and unique. -/
def Bucket.upsert (k : Key) (v : Value) : Bucket → Bucket
  | [] => [(k, v)]
  | (k', v') :: rest =>
    if k = k' then (k, v) :: rest
    else if keyLt k k' then (k, v) :: (k', v') :: rest
    else (k', v') :: Bucket.upsert k v rest

/-- Modelled from the spec: the deletion of a key from a bucket of `core/bmt`
(4.C, step 2). -/
def Bucket.remove (k : Key) (b : Bucket) : Bucket :=
  b.filter (fun e => e.1 ≠ k)

/-- Modelled from the spec: one staged update applied to a bucket of `core/bmt`
(4.C, step 2); the tombstone payload deletes the key, any other payload inserts
or overwrites. -/
def Bucket.apply (p : BMTParams) (b : Bucket) (kv : Key × Value) : Bucket :=
  if kv.2 = p.tombstone then Bucket.remove kv.1 b else Bucket.upsert kv.1 kv.2 b

/-- Modelled from the spec: the canonical serialization of a bucket (4.B), the
concatenation over its entries of length-prefixed key then length-prefixed
value. -/
def Bucket.serialize (p : BMTParams) (b : Bucket) : List Byte :=
  (b.map (fun e => p.lenPrefix e.1.length ++ e.1 ++ (p.lenPrefix e.2.length ++ e.2))).flatten

/-- Modelled from the spec: the hash of a bucket (section 3), the digest of its
serialization; an empty bucket has the nil digest. -/
def bucketHash (p : BMTParams) (b : Bucket) : Hash :=
  if b = [] then nilHash else p.digest (Bucket.serialize p b)

/-- Modelled from the spec: the aggregation levels of `core/bmt` (section 3).
The children of node `n` of the level above
`level`: the `fanout` digests from index `n * fanout` on, a missing child being
the nil digest. -/
def nodeChildren (p : BMTParams) (level : List Hash) (n : Nat) : List Hash :=
  (List.range p.fanout).map (fun c => level.getD (n * p.fanout + c) nilHash)

/-- Modelled from the spec: the digest of an internal node (4.B), the digest of
the concatenation of its child digests in index order. -/
def nodeHash (p : BMTParams) (children : List Hash) : Hash :=
  p.digest (children.map Hash.bytes).flatten

/-- Modelled from the spec: the number of nodes of the level above a level of
`n` nodes (section 3), `ceil(n / fanout)`. -/
def nodeCount (p : BMTParams) (n : Nat) : Nat :=
  (n + p.fanout - 1) / p.fanout

/-- Modelled from the spec: the level above `level` (section 3). -/
def nextLevel (p : BMTParams) (level : List Hash) : List Hash :=
  (List.range (nodeCount p level.length)).map (fun n => nodeHash p (nodeChildren p level n))

/-- Modelled from the spec: the aggregation up to the single top node
(section 3); at most `fuel` levels are built. -/
def aggregateFuel (p : BMTParams) : Nat → List Hash → Hash
  | 0, level => level.headD nilHash
  | fuel + 1, level =>
    if level.length ≤ 1 then level.headD nilHash
    else aggregateFuel p fuel (nextLevel p level)

/-- Modelled from the spec: the tree root of a hash table (section 3). With a
fanout of
at least two every level is shorter than the one below, so the length of the
table is fuel enough (`aggregateFuel_enough`). -/
def aggregate (p : BMTParams) (table : List Hash) : Hash :=
  aggregateFuel p table.length table

/-- Modelled from the spec: the keys of the records that `core/bmt` keeps in the
KV store (section 6), a bucket record per bucket index and a table record per
root. -/
inductive DBKey where
  | bucket (index : Nat)
  | table (root : Hash)
deriving DecidableEq

/-- Modelled from the spec: the records of `core/bmt` themselves, decoded
(serialize then deserialize is the identity, section 8). -/
inductive DBVal where
  | bucket (entries : Bucket)
  | table (hashTable : List Hash) (root : Hash)
deriving DecidableEq

/-- Modelled from the spec: what a point read `Get(key)` of the KV store of
package `db` returns (section 6): an error, no value, or the value found. -/
inductive GetResult where
  | failed
  | missing
  | found (v : DBVal)
deriving DecidableEq

/-- Modelled from the spec: the KV store of package `db` (4.A), seen through
point reads. -/
abbrev KVStore := DBKey → GetResult

/-- Modelled from the spec: one write of a batch of package `db` (4.A). -/
inductive BatchOp where
  | put (k : DBKey) (v : DBVal)
  | delete (k : DBKey)
deriving DecidableEq

/-- Modelled from the spec: a batch of package `db` (4.A), an ordered
accumulator of writes and deletes. -/
abbrev Batch := List BatchOp

/-- Modelled from the spec: the store of package `db` after one write (4.A). -/
def KVStore.applyOp (s : KVStore) : BatchOp → KVStore
  | BatchOp.put k v => fun k' => if k' = k then GetResult.found v else s k'
  | BatchOp.delete k => fun k' => if k' = k then GetResult.missing else s k'

/-- Modelled from the spec: `batch.Write()` of package `db` (4.A), the store
after a flush of the batch that went through. -/
def Batch.Write (b : Batch) (s : KVStore) : KVStore :=
  b.foldl KVStore.applyOp s

/-- Modelled from the spec: the error kinds of `core/bmt` (section 7). -/
inductive BMTErr where
  | CorruptState
  | StoreFailure
  | InvalidWriteSet
deriving DecidableEq

/-- Modelled from the spec: the read of the bucket stored at index `i` by
`core/bmt` (4.C, step 2). A failed read is `StoreFailure`; no record is the
empty bucket; a record of the wrong kind is `CorruptState`. -/
def readBucket (s : KVStore) (i : Nat) : Except BMTErr Bucket :=
  match s (DBKey.bucket i) with
  | GetResult.failed => Except.error BMTErr.StoreFailure
  | GetResult.missing => Except.ok []
  | GetResult.found (DBVal.bucket entries) => Except.ok entries
  | GetResult.found (DBVal.table _ _) => Except.error BMTErr.CorruptState

/-- Modelled from the spec: the bucket that `core/bmt` finds stored at index
`i`, the empty bucket when the read gives none. -/
def storedBucket (s : KVStore) (i : Nat) : Bucket :=
  match readBucket s i with
  | Except.ok entries => entries
  | Except.error _ => []

/-- Modelled from the spec: the tree entity `BucketTree` of `core/bmt`
(section 3), its hash table and its staged delta. The KV store it is bound to is
passed to the operations that read it.
The field `llevel` and the lazily materialized levels are left out: the
specification names them without saying how `Init` and `Commit` set them. -/
structure BucketTree where
  hashTable : List Hash
  staged : List (Key × Value)
deriving DecidableEq

/-- Modelled from the spec: the tree that `BucketTree.Init(nil)` of `core/bmt`
returns (4.C), `capacity` nil digests and nothing staged. -/
def freshTree (p : BMTParams) : BucketTree :=
  { hashTable := List.replicate p.capacity nilHash, staged := [] }

/-- Modelled from the spec: `BucketTree.Init(root | nil)` of `core/bmt` (4.C).
Fresh: `capacity` nil digests. Reload: read the table record keyed by the root
and check that its aggregation is the root, else `CorruptState`; a read that
fails or finds no record is `StoreFailure`. The staged delta is dropped. -/
def BucketTree.Init (p : BMTParams) (store : KVStore) : Option Hash → Except BMTErr BucketTree
  | none => Except.ok (freshTree p)
  | some root =>
    match store (DBKey.table root) with
    | GetResult.found (DBVal.table table _) =>
      if aggregate p table = root then Except.ok { hashTable := table, staged := [] }
      else Except.error BMTErr.CorruptState
    | GetResult.found (DBVal.bucket _) => Except.error BMTErr.CorruptState
    | GetResult.missing => Except.error BMTErr.StoreFailure
    | GetResult.failed => Except.error BMTErr.StoreFailure

/-- Modelled from the spec: `BucketTree.Hash()` of `core/bmt` (4.C), the
top-level digest of the committed hash table. -/
def BucketTree.Hash (p : BMTParams) (tree : BucketTree) : Hash :=
  aggregate p tree.hashTable

/-- Modelled from the spec: the bucket index of a key in `core/bmt` (4.C,
step 1). -/
def bucketIndex (p : BMTParams) (k : Key) : Nat :=
  p.H k % p.capacity

/-- Modelled from the spec: the staged updates of bucket `i` in `Commit` of
`core/bmt` (4.C, step 1). -/
def stagedFor (p : BMTParams) (d : List (Key × Value)) (i : Nat) : List (Key × Value) :=
  d.filter (fun kv => decide (bucketIndex p kv.1 = i))

/-- Modelled from the spec: the indices of the buckets that the staged delta
affects in `Commit` of `core/bmt` (4.C, step 1), ascending. -/
def affected (p : BMTParams) (d : List (Key × Value)) : List Nat :=
  (List.range p.capacity).filter (fun i => decide (stagedFor p d i ≠ []))

/-- Modelled from the spec: the reads of the affected buckets in `Commit` of
`core/bmt` (4.C, step 2): the error of the first read that does not give a
bucket, if any. -/
def firstReadError (store : KVStore) : List Nat → Option BMTErr
  | [] => none
  | i :: rest =>
    match readBucket store i with
    | Except.error e => some e
    | Except.ok _ => firstReadError store rest

/-- Modelled from the spec: bucket `i` after `Commit` of `core/bmt` applied the
staged updates to the stored bucket (4.C, step 2). -/
def newBucket (p : BMTParams) (store : KVStore) (d : List (Key × Value)) (i : Nat) : Bucket :=
  (stagedFor p d i).foldl (Bucket.apply p) (storedBucket store i)

/-- Modelled from the spec: the hash table after `Commit` of `core/bmt` (4.C,
step 3), with the digest of every affected bucket recomputed. -/
def newTable (p : BMTParams) (store : KVStore) (tree : BucketTree) : List Hash :=
  (List.range p.capacity).map (fun i =>
    if stagedFor p tree.staged i = [] then tree.hashTable.getD i nilHash
    else bucketHash p (newBucket p store tree.staged i))

/-- Modelled from the spec: the record that `Commit` of `core/bmt` writes for an
affected bucket (4.C, step 2), a deletion when the bucket became empty. -/
def bucketWrite (p : BMTParams) (store : KVStore) (d : List (Key × Value)) (i : Nat) : BatchOp :=
  if newBucket p store d i = [] then BatchOp.delete (DBKey.bucket i)
  else BatchOp.put (DBKey.bucket i) (DBVal.bucket (newBucket p store d i))

/-- Modelled from the spec: `BucketTree.Commit(batch)` of `core/bmt` (4.C and
8.4). An empty staged delta is a no-op that returns the prior root. Otherwise
the affected buckets are read, and a read that fails ends the commit with its
error (the caller drops the batch and reloads the tree); when all reads go
through, the result is the new root, the batch with the record of each affected
bucket and then the table record under the new root appended, and the tree with
the new hash table and no staged delta. -/
def BucketTree.Commit (p : BMTParams) (store : KVStore) (batch : Batch) (tree : BucketTree) :
    Except BMTErr (Tinychain.Hash × Batch × BucketTree) :=
  if tree.staged = [] then Except.ok (tree.Hash p, batch, tree)
  else
    match firstReadError store (affected p tree.staged) with
    | some e => Except.error e
    | none =>
      Except.ok
        (aggregate p (newTable p store tree),
          batch ++ (affected p tree.staged).map (bucketWrite p store tree.staged) ++
            [BatchOp.put (DBKey.table (aggregate p (newTable p store tree)))
              (DBVal.table (newTable p store tree) (aggregate p (newTable p store tree)))],
          { hashTable := newTable p store tree, staged := [] })

/-- Modelled from the spec: a KV store of package `db` with no record. -/
def emptyStore : KVStore := fun _ => GetResult.missing

/-! ## Sample data -/

/-- A codec for the samples: the bytes are the `Extra` field, the digest their
count. -/
def sampleCodec : Codec :=
  { Marshal := fun hd => (hd.Extra, none), Sha256 := fun d => Hash.ofNat d.length }

/-- A header at height 1 with the given state root. -/
def sampleHeader (root : Hash) : Header :=
  { ParentHash := nilHash, Height := some 1, Difficulty := some 0, Root := root, Miner := [],
    Extra := [1, 2], Nonce := ⟨[0, 0, 0, 0, 0, 0, 0, 0], rfl⟩, Time := 0 }

/-- A block of three transactions built by `NewBlock`, header root 5. -/
def sampleBlock : Block :=
  NewBlock sampleCodec (sampleHeader (Hash.ofNat 5)) [⟨10⟩, ⟨11⟩, ⟨12⟩] (some 3)

/-- A block of three transactions at height 2. -/
def sampleBlockTwo : Block :=
  NewBlock sampleCodec { sampleHeader (Hash.ofNat 5) with Height := some 2 }
    [⟨10⟩, ⟨11⟩, ⟨12⟩] none

/-- Collaborators that never fail; the state commit returns root 7. -/
def sampleEnv : Env :=
  { Height := fun b => (b.Header.Height.getD 0).toNat
    TxHash := fun tx => Hash.ofNat tx.raw
    PutTxMetas := fun _ _ _ _ => none
    PutReceipt := fun _ _ _ _ => none
    StateCommit := fun _ _ => (Hash.ofNat 7, none)
    CommitBlock := fun _ _ _ => none
    CommitBatch := fun _ _ => none }

/-- As `sampleEnv`, but the chain refuses the block. -/
def sampleEnvBlockFails : Env :=
  { sampleEnv with CommitBlock := fun _ _ _ => some (Err.other 1) }

/-- An executor with three receipts cached for height 1 and two for height 2. -/
def sampleExecutor : Executor :=
  { receiptsCache := fun h =>
      if h = 1 then some [⟨20⟩, ⟨21⟩, ⟨22⟩] else if h = 2 then some [⟨30⟩, ⟨31⟩] else none
    trace := []
    logs := [] }

/-- An executor with an empty receipts cache. -/
def sampleExecutorNoCache : Executor :=
  { receiptsCache := fun _ => none, trace := [], logs := [] }

/-- A libp2p for the samples: ids print as themselves, every address parses,
and `Update` puts a peer that is not in the routing table at its front (what a
k-bucket with room left does). -/
def sampleLib : Lib :=
  { Pretty := fun p => p
    IDB58Decode := fun s => some s
    NewMultiaddr := fun s => some s
    Update := fun rt p => if p ∈ rt then rt else p :: rt }

/-- A fresh route table for the local peer `"me"` with room for one peer. -/
def sampleTable : RouteTable :=
  { peerStore := [], routeTable := [], maxPeers := 1, localID := "me" }

/-- Three calls: a peer announced without an address, a second peer with an
address, then an address for the first peer. -/
def sampleOps : List PeerOp :=
  [PeerOp.AddPeerInfo "p1" [], PeerOp.AddPeer "p2" "/ip4/10.0.0.2/tcp/1",
    PeerOp.AddPeer "p1" "/ip4/10.0.0.1/tcp/1"]

/-- A route table with room for one peer whose routing table holds `p1` while
the peer store has an entry for `p2` only. -/
def sampleTableStale : RouteTable :=
  { peerStore := [("p2", ["/ip4/10.0.0.2/tcp/1"])], routeTable := ["p1"], maxPeers := 1,
    localID := "me" }

theorem record_trace (ex : Executor) (c : Call) : (ex.record c).trace = ex.trace ++ [c] := rfl

theorem persistReceiptsLoop_ok (env : Env) (txs : List Transaction) (height : Nat) :
    ∀ (rest : List Receipt) (idx : Nat) (ex : Executor),
      idx + rest.length = txs.length →
      (∀ j tx rp, txs[idx + j]? = some tx → rest[j]? = some rp →
        env.PutReceipt
          (ex.trace ++ receiptCalls env height ((txs.drop idx).take j) (rest.take j))
          height (env.TxHash tx) rp = none) →
      persistReceiptsLoop env txs height idx rest ex =
        some (none, { ex with
          trace := ex.trace ++ receiptCalls env height (txs.drop idx) rest }) := by
  intro rest
  induction rest with
  | nil =>
    intro idx ex _ _
    simp [persistReceiptsLoop, receiptCalls]
  | cons rp rest ih =>
    intro idx ex hlen hok
    have hidx : idx < txs.length := by simp at hlen; omega
    have hget : txs[idx]? = some txs[idx] := List.getElem?_eq_getElem hidx
    have h0 := hok 0 txs[idx] rp (by simp) (by simp)
    simp [receiptCalls] at h0
    have hdrop : txs.drop idx = txs[idx] :: txs.drop (idx + 1) := List.drop_eq_getElem_cons hidx
    rw [persistReceiptsLoop, hget]
    simp only [h0]
    rw [ih (idx + 1) _ (by simp at hlen ⊢; omega)]
    · rw [hdrop]
      simp only [Executor.record, receiptCalls, List.zipWith_cons_cons, List.append_assoc,
        List.singleton_append]
    · intro j tx rp2 htx hrp
      have := hok (j + 1) tx rp2 (by rw [← htx]; congr 1; omega) (by simpa using hrp)
      rw [hdrop] at this
      simpa only [Executor.record, receiptCalls, List.zipWith_cons_cons, List.append_assoc,
        List.singleton_append, List.take_succ_cons] using this

theorem persistReceiptsLoop_frame (env : Env) (txs : List Transaction) (height : Nat) :
    ∀ (rest : List Receipt) (idx : Nat) (ex : Executor) (r : Option Err) (ex' : Executor),
      persistReceiptsLoop env txs height idx rest ex = some (r, ex') →
      ex'.receiptsCache = ex.receiptsCache ∧ ex'.logs = ex.logs ∧
      ∃ new, ex'.trace = ex.trace ++ new ∧
        ∀ c ∈ new, ∃ th rp, c = Call.PutReceipt height th rp := by
  intro rest
  induction rest with
  | nil =>
    intro idx ex r ex' h
    simp only [persistReceiptsLoop, Option.some.injEq, Prod.mk.injEq] at h
    obtain ⟨-, rfl⟩ := h
    exact ⟨rfl, rfl, [], by simp, by simp⟩
  | cons rp rest ih =>
    intro idx ex r ex' h
    rw [persistReceiptsLoop] at h
    split at h
    · exact absurd h (by simp)
    · rename_i tx _
      split at h
      · simp only [Option.some.injEq, Prod.mk.injEq] at h
        obtain ⟨-, rfl⟩ := h
        exact ⟨rfl, rfl, [Call.PutReceipt height (env.TxHash tx) rp], rfl, by simp⟩
      · obtain ⟨hc, hl, new, hnew, hall⟩ := ih _ _ _ _ h
        refine ⟨hc, hl, Call.PutReceipt height (env.TxHash tx) rp :: new, ?_, ?_⟩
        · rw [hnew]; simp [Executor.record]
        · intro c hcm
          rcases List.mem_cons.1 hcm with rfl | hcm
          · exact ⟨_, _, rfl⟩
          · exact hall c hcm

theorem persistReceipts_frame (env : Env) (ex : Executor) (txs : List Transaction)
    (receipts : List Receipt) (height : Nat) (r : Option Err) (ex' : Executor)
    (h : persistReceipts env ex txs receipts height = some (r, ex')) :
    ex'.receiptsCache = ex.receiptsCache ∧ ex'.logs = ex.logs ∧
      ∃ new, ex'.trace = ex.trace ++ new ∧
        ∀ c ∈ new, ∃ th rp, c = Call.PutReceipt height th rp := by
  unfold persistReceipts at h
  split at h
  · simp only [Option.some.injEq, Prod.mk.injEq] at h
    obtain ⟨-, rfl⟩ := h
    exact ⟨rfl, rfl, [], by simp, by simp⟩
  · exact persistReceiptsLoop_frame env txs height receipts 0 ex r ex' h

theorem commitReceipts_frame (env : Env) (ex : Executor) (block : Block) (r : Option Err)
    (ex' : Executor) (h : commitReceipts env ex block = some (r, ex')) :
    (∃ new, ex'.trace = ex.trace ++ new ∧
        ∀ c ∈ new, ∃ th rp, c = Call.PutReceipt (env.Height block) th rp) ∧
    (∀ e, r = some e →
      ex'.logs = ex.logs ++ [LogMsg.failedReceipts e] ∧ ex'.receiptsCache = ex.receiptsCache) ∧
    (r = none → ex'.logs = ex.logs ∧ ex'.receiptsCache (env.Height block) = none ∧
      ∀ k, k ≠ env.Height block → ex'.receiptsCache k = ex.receiptsCache k) ∧
    (ex.receiptsCache (env.Height block) = none → r = none ∧ ex' = ex) := by
  unfold commitReceipts at h
  split at h
  · rename_i hnone
    simp only [Option.some.injEq, Prod.mk.injEq] at h
    obtain ⟨rfl, rfl⟩ := h
    exact ⟨⟨[], by simp, by simp⟩, by simp, by simp [hnone], fun _ => ⟨rfl, rfl⟩⟩
  · rename_i receipts hsome
    split at h
    · exact absurd h (by simp)
    · rename_i err ex1 hp
      simp only [Option.some.injEq, Prod.mk.injEq] at h
      obtain ⟨rfl, rfl⟩ := h
      obtain ⟨hc, hl, hnew⟩ := persistReceipts_frame _ _ _ _ _ _ _ hp
      refine ⟨hnew, ?_, by simp, by simp [hsome]⟩
      intro e he
      simp only [Option.some.injEq] at he
      subst he
      simp [Executor.log, hl, hc]
    · rename_i ex1 hp
      simp only [Option.some.injEq, Prod.mk.injEq] at h
      obtain ⟨rfl, rfl⟩ := h
      obtain ⟨hc, hl, hnew⟩ := persistReceipts_frame _ _ _ _ _ _ _ hp
      refine ⟨hnew, by simp, ?_, by simp [hsome]⟩
      intro _
      refine ⟨hl, by simp [Executor.cacheDelete], ?_⟩
      intro k hk
      simp [Executor.cacheDelete, hk, hc]

/-- The four ways the tail of `commit` can end: an error returned by the state
commit, by the chain or by the flush, each with what the earlier collaborators
returned, the calls made up to there and the log line, or nil after the five
calls. -/
theorem commitState_cases (env : Env) (ex : Executor) (block : Block) (r : Option Err)
    (ex' : Executor) (h : commitState env ex block = some (r, ex')) :
    ex'.receiptsCache = ex.receiptsCache ∧
    ((∃ e, r = some e ∧
        (env.StateCommit ex.trace (env.Height block)).2 = some e ∧
        ex'.logs = ex.logs ++ [LogMsg.failedState e] ∧
        ex'.trace = ex.trace ++ [Call.StateCommit (env.Height block)]) ∨
     (∃ e, r = some e ∧
        (env.StateCommit ex.trace (env.Height block)).2 = none ∧
        env.CommitBlock (ex.trace ++ [Call.StateCommit (env.Height block)])
          (env.Height block) block = some e ∧
        ex'.logs = ex.logs ++ [LogMsg.failedBlock e] ∧
        ex'.trace = ex.trace ++ [Call.StateCommit (env.Height block),
          Call.CommitBlock (env.Height block) block]) ∨
     (∃ e, r = some e ∧
        (env.StateCommit ex.trace (env.Height block)).2 = none ∧
        env.CommitBlock (ex.trace ++ [Call.StateCommit (env.Height block)])
          (env.Height block) block = none ∧
        env.CommitBatch (ex.trace ++ [Call.StateCommit (env.Height block),
          Call.CommitBlock (env.Height block) block]) (env.Height block) = some e ∧
        ex'.logs = ex.logs ++ [LogMsg.failedBatch e] ∧
        ex'.trace = ex.trace ++ [Call.StateCommit (env.Height block),
          Call.CommitBlock (env.Height block) block, Call.CommitBatch (env.Height block)]) ∨
     (r = none ∧
        (env.StateCommit ex.trace (env.Height block)).2 = none ∧
        env.CommitBlock (ex.trace ++ [Call.StateCommit (env.Height block)])
          (env.Height block) block = none ∧
        env.CommitBatch (ex.trace ++ [Call.StateCommit (env.Height block),
          Call.CommitBlock (env.Height block) block]) (env.Height block) = none ∧
        ex'.trace = ex.trace ++ [Call.StateCommit (env.Height block),
          Call.CommitBlock (env.Height block) block, Call.CommitBatch (env.Height block),
          Call.GoPost block, Call.ResetVersion])) := by
  unfold commitState stateCommit commitBlock at h
  split at h
  · rename_i e ex3 heq
    simp only [Prod.mk.injEq] at heq
    obtain ⟨hsc, rfl⟩ := heq
    simp only [Option.some.injEq, Prod.mk.injEq] at h
    obtain ⟨rfl, rfl⟩ := h
    exact ⟨rfl, Or.inl ⟨e, rfl, by rw [hsc], rfl, rfl⟩⟩
  · rename_i ex3 heq
    simp only [Prod.mk.injEq] at heq
    obtain ⟨hsc, rfl⟩ := heq
    have hsc' : (env.StateCommit ex.trace (env.Height block)).2 = none := by rw [hsc]
    split at h
    · rename_i e ex4 heq4
      simp only [Prod.mk.injEq] at heq4
      obtain ⟨hcb, rfl⟩ := heq4
      simp only [Option.some.injEq, Prod.mk.injEq] at h
      obtain ⟨rfl, rfl⟩ := h
      exact ⟨rfl, Or.inr (Or.inl ⟨e, rfl, hsc', hcb, rfl,
        by simp [Executor.record, Executor.log]⟩)⟩
    · rename_i ex4 heq4
      simp only [Prod.mk.injEq] at heq4
      obtain ⟨hcb, rfl⟩ := heq4
      split at h
      · rename_i e hbatch
        simp only [Option.some.injEq, Prod.mk.injEq] at h
        obtain ⟨rfl, rfl⟩ := h
        refine ⟨rfl, Or.inr (Or.inr (Or.inl ⟨e, rfl, hsc', hcb, ?_, rfl,
          by simp [Executor.record, Executor.log]⟩))⟩
        simpa [Executor.record] using hbatch
      · rename_i hbatch
        split at h
        · exact absurd h (by simp)
        · simp only [Option.some.injEq, Prod.mk.injEq] at h
          obtain ⟨rfl, rfl⟩ := h
          refine ⟨rfl, Or.inr (Or.inr (Or.inr ⟨rfl, hsc', hcb, ?_,
            by simp [Executor.record, Executor.log]⟩))⟩
          simpa [Executor.record] using hbatch

theorem persistReceiptsLoop_none (env : Env) (txs : List Transaction) (height : Nat) :
    ∀ (rest : List Receipt) (idx : Nat) (ex ex' : Executor),
      idx + rest.length = txs.length →
      persistReceiptsLoop env txs height idx rest ex = some (none, ex') →
      ex'.trace = ex.trace ++ receiptCalls env height (txs.drop idx) rest ∧
      ∀ j tx rp, txs[idx + j]? = some tx → rest[j]? = some rp →
        env.PutReceipt
          (ex.trace ++ receiptCalls env height ((txs.drop idx).take j) (rest.take j))
          height (env.TxHash tx) rp = none := by
  intro rest
  induction rest with
  | nil =>
    intro idx ex ex' _ h
    simp only [persistReceiptsLoop, Option.some.injEq, Prod.mk.injEq, true_and] at h
    subst h
    refine ⟨by simp [receiptCalls], ?_⟩
    intro j tx rp _ hrp
    simp at hrp
  | cons rp rest ih =>
    intro idx ex ex' hlen h
    have hidx : idx < txs.length := by simp at hlen; omega
    have hget : txs[idx]? = some txs[idx] := List.getElem?_eq_getElem hidx
    have hdrop : txs.drop idx = txs[idx] :: txs.drop (idx + 1) := List.drop_eq_getElem_cons hidx
    rw [persistReceiptsLoop, hget] at h
    dsimp only at h
    cases hput : env.PutReceipt ex.trace height (env.TxHash txs[idx]) rp with
    | some err =>
      rw [hput] at h
      simp at h
    | none =>
      rw [hput] at h
      dsimp only at h
      obtain ⟨htr, hall⟩ := ih (idx + 1) _ ex' (by simp at hlen ⊢; omega) h
      constructor
      · rw [htr, hdrop]
        simp only [Executor.record, receiptCalls, List.zipWith_cons_cons, List.append_assoc,
          List.singleton_append]
      · intro j tx rp2 htx hrp
        cases j with
        | zero =>
          have htx' : txs[idx]? = some tx := by simpa using htx
          rw [hget] at htx'
          have hrp' : rp = rp2 := by simpa using hrp
          have htxeq : txs[idx] = tx := Option.some.inj htx'
          subst hrp' htxeq
          simpa [receiptCalls] using hput
        | succ j =>
          have := hall j tx rp2 (by rw [← htx]; congr 1; omega) (by simpa using hrp)
          rw [hdrop]
          simpa only [Executor.record, receiptCalls, List.zipWith_cons_cons, List.append_assoc,
            List.singleton_append, List.take_succ_cons] using this

/-- The receipts step returned nil: the count matched and every `PutReceipt`
returned nil (when the cache held an entry), and the calls made are the
`PutReceipt` calls of the cached receipts. -/
theorem commitReceipts_none (env : Env) (ex ex' : Executor) (block : Block)
    (h : commitReceipts env ex block = some (none, ex')) :
    ex'.trace = ex.trace ++ receiptCalls env (env.Height block) block.Transactions
      ((ex.receiptsCache (env.Height block)).getD []) ∧
    ∀ rs, ex.receiptsCache (env.Height block) = some rs →
      block.Transactions.length = rs.length ∧
      ∀ i tx rp, block.Transactions[i]? = some tx → rs[i]? = some rp →
        env.PutReceipt
          (ex.trace ++ receiptCalls env (env.Height block) (block.Transactions.take i)
            (rs.take i))
          (env.Height block) (env.TxHash tx) rp = none := by
  unfold commitReceipts at h
  split at h
  · rename_i hnone
    simp only [Option.some.injEq, Prod.mk.injEq, true_and] at h
    subst h
    rw [hnone]
    refine ⟨by simp [receiptCalls], ?_⟩
    intro rs hrs
    exact absurd hrs (by simp)
  · rename_i receipts hsome
    split at h
    · exact absurd h (by simp)
    · simp at h
    · rename_i ex1 hp
      simp only [Option.some.injEq, Prod.mk.injEq, true_and] at h
      subst h
      unfold persistReceipts at hp
      by_cases hlen : block.Transactions.length = receipts.length
      · rw [if_neg (by simpa using hlen)] at hp
        obtain ⟨htr, hall⟩ := persistReceiptsLoop_none env block.Transactions (env.Height block)
          receipts 0 ex ex1 (by simpa using hlen.symm) hp
        rw [hsome]
        refine ⟨by simpa [Executor.cacheDelete] using htr, ?_⟩
        intro rs hrs
        have hrs' : receipts = rs := Option.some.inj hrs
        subst hrs'
        refine ⟨hlen, ?_⟩
        intro i tx rp htx hrp
        have := hall i tx rp (by simpa using htx) hrp
        simpa using this
      · rw [if_pos (by simpa using hlen)] at hp
        simp at hp

/-! ### persistReceipts -/

theorem persistReceipts_mismatch (env : Env) (ex : Executor) (txs : List Transaction)
    (receipts : List Receipt) (height : Nat) (hne : txs.length ≠ receipts.length) :
    persistReceipts env ex txs receipts height = some (some Err.errReceiptNumInvalid, ex) := by
  simp [persistReceipts, hne]

theorem persistReceipts_ok (env : Env) (ex : Executor) (txs : List Transaction)
    (receipts : List Receipt) (height : Nat) (hlen : txs.length = receipts.length)
    (hok : ∀ i tx rp, txs[i]? = some tx → receipts[i]? = some rp →
      env.PutReceipt
        (ex.trace ++ receiptCalls env height (txs.take i) (receipts.take i))
        height (env.TxHash tx) rp = none) :
    persistReceipts env ex txs receipts height =
      some (none, { ex with
        trace := ex.trace ++ receiptCalls env height txs receipts }) := by
  unfold persistReceipts
  rw [if_neg (by simpa using hlen)]
  have := persistReceiptsLoop_ok env txs height receipts 0 ex (by simpa using hlen.symm)
    (by
      intro j tx rp htx hrp
      have := hok j tx rp (by simpa using htx) hrp
      simpa using this)
  simpa using this

/-- C2: `persistReceipts` returns `errReceiptNumInvalid` and leaves the executor
(so also the height batch) untouched when the two lengths differ; when they are
equal and every `PutReceipt` it makes returns nil, it returns nil after
recording `receipts[i]` under `txs[i].Hash()` for each index in ascending
order. -/
theorem persistReceipts_contract (env : Env) (ex : Executor) (txs : List Transaction)
    (receipts : List Receipt) (height : Nat) :
    (txs.length ≠ receipts.length →
      persistReceipts env ex txs receipts height =
        some (some Err.errReceiptNumInvalid, ex)) ∧
    (txs.length = receipts.length →
      (∀ i tx rp, txs[i]? = some tx → receipts[i]? = some rp →
        env.PutReceipt
          (ex.trace ++ receiptCalls env height (txs.take i) (receipts.take i))
          height (env.TxHash tx) rp = none) →
      persistReceipts env ex txs receipts height =
        some (none, { ex with
          trace := ex.trace ++ receiptCalls env height txs receipts })) :=
  ⟨persistReceipts_mismatch env ex txs receipts height,
    persistReceipts_ok env ex txs receipts height⟩

theorem persistReceipts_contract_witness :
    persistReceipts sampleEnv sampleExecutor [⟨10⟩, ⟨11⟩] [⟨20⟩] 1 =
        some (some Err.errReceiptNumInvalid, sampleExecutor) ∧
    persistReceipts sampleEnv sampleExecutor [⟨10⟩, ⟨11⟩] [⟨20⟩, ⟨21⟩] 1 =
        some (none, { sampleExecutor with
          trace := [Call.PutReceipt 1 (Hash.ofNat 10) ⟨20⟩,
            Call.PutReceipt 1 (Hash.ofNat 11) ⟨21⟩] }) :=
  ⟨(persistReceipts_contract sampleEnv sampleExecutor [⟨10⟩, ⟨11⟩] [⟨20⟩] 1).1 (by decide),
   (persistReceipts_contract sampleEnv sampleExecutor [⟨10⟩, ⟨11⟩] [⟨20⟩, ⟨21⟩] 1).2
      (by decide) (by intros; rfl)⟩

/-! ### commit -/

theorem commit_unfold (env : Env) (ex : Executor) (block : Block) (bh : Hash)
    (hb : block.Hash = some bh) :
    commit env ex block =
      match env.PutTxMetas ex.trace (env.Height block) block.Transactions bh with
      | some err =>
        some (some err,
          (ex.record (Call.PutTxMetas (env.Height block) block.Transactions bh)).log
            (LogMsg.failedTxMetas err))
      | none =>
        match commitReceipts env
            (ex.record (Call.PutTxMetas (env.Height block) block.Transactions bh)) block with
        | none => none
        | some (some err, ex2) => some (some err, ex2)
        | some (none, ex2) => commitState env ex2 block := by
  unfold commit persistTxs
  rw [hb]
  dsimp only
  cases env.PutTxMetas ex.trace (env.Height block) block.Transactions bh <;> rfl

theorem commit_hash_some (env : Env) (ex : Executor) (block : Block)
    (r : Option Err × Executor) (h : commit env ex block = some r) :
    ∃ bh, block.Hash = some bh := by
  cases hb : block.Hash with
  | some bh => exact ⟨bh, rfl⟩
  | none =>
    unfold commit persistTxs at h
    rw [hb] at h
    exact absurd h (by simp)

/-! ### Runs -/

theorem schedules_store_cons (c : Call) (hc : c.isStoreCall = true) (rest : List Call) :
    schedules (c :: rest) = (schedules rest).map (fun r => c :: r) := by
  cases c <;> first | rfl | simp [Call.isStoreCall] at hc

theorem schedules_store_append (l : List Call) (hl : ∀ c ∈ l, c.isStoreCall = true)
    (rest : List Call) :
    schedules (l ++ rest) = (schedules rest).map (fun r => l ++ r) := by
  induction l with
  | nil => simp
  | cons c l ih =>
    have hc : c.isStoreCall = true := hl c (List.mem_cons_self _ _)
    have hl' : ∀ d ∈ l, d.isStoreCall = true := fun d hd => hl d (List.mem_cons_of_mem _ hd)
    rw [List.cons_append, schedules_store_cons c hc, ih hl', List.map_map]
    rfl

theorem store_calls_facts (l : List Call) (hl : ∀ c ∈ l, c.isStoreCall = true) :
    (∀ b, Call.GoPost b ∉ l) ∧ (∀ r ∈ schedules l, ∀ b, Call.Post b ∉ r) ∧
      Call.ResetVersion ∉ l := by
  have hs : schedules l = [l] := by
    have := schedules_store_append l hl []
    simpa [schedules] using this
  refine ⟨?_, ?_, ?_⟩
  · intro b hb
    have := hl _ hb
    simp [Call.isStoreCall] at this
  · intro r hr b hb
    rw [hs] at hr
    have hrl : r = l := by simpa using hr
    subst hrl
    have := hl _ hb
    simp [Call.isStoreCall] at this
  · intro hb
    have := hl _ hb
    simp [Call.isStoreCall] at this

theorem receiptCalls_store (env : Env) (height : Nat) :
    ∀ (txs : List Transaction) (rs : List Receipt),
      ∀ c ∈ receiptCalls env height txs rs, c.isStoreCall = true := by
  intro txs
  induction txs with
  | nil => intro rs c hc; simp [receiptCalls] at hc
  | cons tx txs ih =>
    intro rs c hc
    cases rs with
    | nil => simp [receiptCalls] at hc
    | cons r rs =>
      simp only [receiptCalls, List.zipWith_cons_cons, List.mem_cons] at hc
      rcases hc with rfl | hc
      · rfl
      · exact ih rs c hc

theorem receiptCalls_no_batch (env : Env) (height : Nat) :
    ∀ (txs : List Transaction) (rs : List Receipt) (k : Nat),
      Call.CommitBatch k ∉ receiptCalls env height txs rs := by
  intro txs
  induction txs with
  | nil => intro rs k hc; simp [receiptCalls] at hc
  | cons tx txs ih =>
    intro rs k hc
    cases rs with
    | nil => simp [receiptCalls] at hc
    | cons r rs =>
      simp only [receiptCalls, List.zipWith_cons_cons, List.mem_cons] at hc
      rcases hc with hc | hc
      · exact absurd hc (by simp)
      · exact ih rs k hc

/-! ### commit returns an error -/

/-- C3: when `commit` returns an error, the calls it made contain no `go` of the
`Post` (so in no run is the event posted) and no `ResetVersion`. Moreover
`CommitBatch` was invoked only if every earlier collaborator returned nil
(`PutTxMetas`, the receipts count and each `PutReceipt`, `StateCommit`,
`CommitBlock`, each asked after the calls made before it) and the error is the
one `CommitBatch` returned: an error of `persistTxs`, `persistReceipts`
(the count mismatch included), `stateCommit` or `commitBlock` leaves the batch
unflushed. -/
theorem commit_error_aborts (env : Env) (ex : Executor) (block : Block) (e : Err)
    (ex' : Executor) (h : commit env ex block = some (some e, ex')) :
    ∃ new, ex'.trace = ex.trace ++ new ∧
      (∀ b, Call.GoPost b ∉ new) ∧ (∀ r ∈ schedules new, ∀ b, Call.Post b ∉ r) ∧
      Call.ResetVersion ∉ new ∧
      ((∀ k, Call.CommitBatch k ∉ new) ∨
        ∃ bh, block.Hash = some bh ∧
          env.PutTxMetas ex.trace (env.Height block) block.Transactions bh = none ∧
          (∀ rs, ex.receiptsCache (env.Height block) = some rs →
            block.Transactions.length = rs.length ∧
            ∀ i tx rp, block.Transactions[i]? = some tx → rs[i]? = some rp →
              env.PutReceipt
                (ex.trace ++ [Call.PutTxMetas (env.Height block) block.Transactions bh] ++
                  receiptCalls env (env.Height block) (block.Transactions.take i) (rs.take i))
                (env.Height block) (env.TxHash tx) rp = none) ∧
          (env.StateCommit
            (ex.trace ++ [Call.PutTxMetas (env.Height block) block.Transactions bh] ++
              receiptCalls env (env.Height block) block.Transactions
                ((ex.receiptsCache (env.Height block)).getD []))
            (env.Height block)).2 = none ∧
          env.CommitBlock
            (ex.trace ++ [Call.PutTxMetas (env.Height block) block.Transactions bh] ++
              receiptCalls env (env.Height block) block.Transactions
                ((ex.receiptsCache (env.Height block)).getD []) ++
              [Call.StateCommit (env.Height block)])
            (env.Height block) block = none ∧
          env.CommitBatch
            (ex.trace ++ [Call.PutTxMetas (env.Height block) block.Transactions bh] ++
              receiptCalls env (env.Height block) block.Transactions
                ((ex.receiptsCache (env.Height block)).getD []) ++
              [Call.StateCommit (env.Height block), Call.CommitBlock (env.Height block) block])
            (env.Height block) = some e ∧
          new = [Call.PutTxMetas (env.Height block) block.Transactions bh] ++
            receiptCalls env (env.Height block) block.Transactions
              ((ex.receiptsCache (env.Height block)).getD []) ++
            [Call.StateCommit (env.Height block), Call.CommitBlock (env.Height block) block,
              Call.CommitBatch (env.Height block)]) := by
  obtain ⟨bh, hb⟩ := commit_hash_some env ex block _ h
  rw [commit_unfold env ex block bh hb] at h
  split at h
  · simp only [Option.some.injEq, Prod.mk.injEq] at h
    obtain ⟨rfl, rfl⟩ := h
    have hst : ∀ c ∈ [Call.PutTxMetas (env.Height block) block.Transactions bh],
        c.isStoreCall = true := by
      intro c hc
      have : c = Call.PutTxMetas (env.Height block) block.Transactions bh := by simpa using hc
      subst this
      rfl
    obtain ⟨h1, h2, h3⟩ := store_calls_facts _ hst
    exact ⟨[Call.PutTxMetas (env.Height block) block.Transactions bh], rfl, h1, h2, h3,
      Or.inl (by simp)⟩
  · rename_i hput
    split at h
    · exact absurd h (by simp)
    · rename_i err ex2 hr
      simp only [Option.some.injEq, Prod.mk.injEq] at h
      obtain ⟨rfl, rfl⟩ := h
      obtain ⟨⟨new, hnew, hall⟩, -, -, -⟩ := commitReceipts_frame _ _ _ _ _ hr
      have hst : ∀ c ∈ Call.PutTxMetas (env.Height block) block.Transactions bh :: new,
          c.isStoreCall = true := by
        intro c hc
        rcases List.mem_cons.1 hc with rfl | hc
        · rfl
        · obtain ⟨th, rp, rfl⟩ := hall c hc
          rfl
      obtain ⟨h1, h2, h3⟩ := store_calls_facts _ hst
      refine ⟨Call.PutTxMetas (env.Height block) block.Transactions bh :: new, ?_, h1, h2, h3,
        Or.inl ?_⟩
      · rw [hnew]; simp [Executor.record]
      · intro k hk
        rcases List.mem_cons.1 hk with hk | hk
        · exact absurd hk (by simp)
        · obtain ⟨th, rp, hEq⟩ := hall _ hk
          exact absurd hEq (by simp)
    · rename_i ex2 hr
      obtain ⟨htr, hrs⟩ := commitReceipts_none env _ ex2 block hr
      have htr' : ex2.trace =
          ex.trace ++ [Call.PutTxMetas (env.Height block) block.Transactions bh] ++
            receiptCalls env (env.Height block) block.Transactions
              ((ex.receiptsCache (env.Height block)).getD []) := htr
      have hpre : ∀ c ∈ [Call.PutTxMetas (env.Height block) block.Transactions bh] ++
          receiptCalls env (env.Height block) block.Transactions
            ((ex.receiptsCache (env.Height block)).getD []), c.isStoreCall = true := by
        intro c hc
        rcases List.mem_append.1 hc with hc | hc
        · have : c = Call.PutTxMetas (env.Height block) block.Transactions bh := by
            simpa using hc
          subst this
          rfl
        · exact receiptCalls_store env _ _ _ c hc
      have hpreB : ∀ k, Call.CommitBatch k ∉
          [Call.PutTxMetas (env.Height block) block.Transactions bh] ++
          receiptCalls env (env.Height block) block.Transactions
            ((ex.receiptsCache (env.Height block)).getD []) := by
        intro k hk
        rcases List.mem_append.1 hk with hk | hk
        · simp at hk
        · exact receiptCalls_no_batch env _ _ _ k hk
      obtain ⟨-, hcase⟩ := commitState_cases _ _ _ _ _ h
      rcases hcase with ⟨e', he, -, -, ht⟩ | ⟨e', he, -, -, -, ht⟩ |
        ⟨e', he, hsc, hcb, hbatch, -, ht⟩ | ⟨he, -⟩
      · have hst : ∀ c ∈ ([Call.PutTxMetas (env.Height block) block.Transactions bh] ++
            receiptCalls env (env.Height block) block.Transactions
              ((ex.receiptsCache (env.Height block)).getD [])) ++
            [Call.StateCommit (env.Height block)], c.isStoreCall = true := by
          intro c hc
          rcases List.mem_append.1 hc with hc | hc
          · exact hpre c hc
          · have : c = Call.StateCommit (env.Height block) := by simpa using hc
            subst this
            rfl
        obtain ⟨h1, h2, h3⟩ := store_calls_facts _ hst
        refine ⟨_, ?_, h1, h2, h3, Or.inl ?_⟩
        · rw [ht, htr']; simp
        · intro k hk
          rcases List.mem_append.1 hk with hk | hk
          · exact hpreB k hk
          · simp at hk
      · have hst : ∀ c ∈ ([Call.PutTxMetas (env.Height block) block.Transactions bh] ++
            receiptCalls env (env.Height block) block.Transactions
              ((ex.receiptsCache (env.Height block)).getD [])) ++
            [Call.StateCommit (env.Height block), Call.CommitBlock (env.Height block) block],
            c.isStoreCall = true := by
          intro c hc
          rcases List.mem_append.1 hc with hc | hc
          · exact hpre c hc
          · have : c = Call.StateCommit (env.Height block) ∨
                c = Call.CommitBlock (env.Height block) block := by simpa using hc
            rcases this with rfl | rfl <;> rfl
        obtain ⟨h1, h2, h3⟩ := store_calls_facts _ hst
        refine ⟨_, ?_, h1, h2, h3, Or.inl ?_⟩
        · rw [ht, htr']; simp
        · intro k hk
          rcases List.mem_append.1 hk with hk | hk
          · exact hpreB k hk
          · simp at hk
      · have hst : ∀ c ∈ ([Call.PutTxMetas (env.Height block) block.Transactions bh] ++
            receiptCalls env (env.Height block) block.Transactions
              ((ex.receiptsCache (env.Height block)).getD [])) ++
            [Call.StateCommit (env.Height block), Call.CommitBlock (env.Height block) block,
              Call.CommitBatch (env.Height block)], c.isStoreCall = true := by
          intro c hc
          rcases List.mem_append.1 hc with hc | hc
          · exact hpre c hc
          · have : c = Call.StateCommit (env.Height block) ∨
                c = Call.CommitBlock (env.Height block) block ∨
                c = Call.CommitBatch (env.Height block) := by simpa using hc
            rcases this with rfl | rfl | rfl <;> rfl
        obtain ⟨h1, h2, h3⟩ := store_calls_facts _ hst
        have hee : e' = e := by
          have := he
          simp only [Option.some.injEq] at this
          exact this.symm
        subst hee
        refine ⟨_, ?_, h1, h2, h3, Or.inr ⟨bh, hb, hput, ?_, ?_, ?_, ?_, rfl⟩⟩
        · rw [ht, htr']; simp
        · intro rs hcache
          obtain ⟨hlen, hall⟩ := hrs rs hcache
          refine ⟨hlen, ?_⟩
          intro i tx rp htx hrp
          have := hall i tx rp htx hrp
          simpa [Executor.record, List.append_assoc] using this
        · rw [← htr']; exact hsc
        · rw [← htr']; exact hcb
        · rw [← htr']
          simpa [List.append_assoc] using hbatch
      · exact absurd he (by simp)

theorem commit_error_aborts_witness :
    (∃ ex', commit sampleEnvBlockFails sampleExecutor sampleBlock =
        some (some (Err.other 1), ex') ∧
      ex'.trace =
        [Call.PutTxMetas 1 [⟨10⟩, ⟨11⟩, ⟨12⟩] (Hash.ofNat 2),
          Call.PutReceipt 1 (Hash.ofNat 10) ⟨20⟩, Call.PutReceipt 1 (Hash.ofNat 11) ⟨21⟩,
          Call.PutReceipt 1 (Hash.ofNat 12) ⟨22⟩,
          Call.StateCommit 1, Call.CommitBlock 1 sampleBlock] ∧
      ex'.logs = [LogMsg.failedBlock (Err.other 1)] ∧
      (∀ k, Call.CommitBatch k ∉ ex'.trace) ∧ (∀ b, Call.GoPost b ∉ ex'.trace) ∧
      Call.ResetVersion ∉ ex'.trace) ∧
    (∃ ex', commit sampleEnv sampleExecutor sampleBlockTwo =
        some (some Err.errReceiptNumInvalid, ex') ∧
      ex'.trace = [Call.PutTxMetas 2 [⟨10⟩, ⟨11⟩, ⟨12⟩] (Hash.ofNat 2)] ∧
      ex'.logs = [LogMsg.failedReceipts Err.errReceiptNumInvalid] ∧
      (∀ k, Call.CommitBatch k ∉ ex'.trace) ∧ (∀ b, Call.GoPost b ∉ ex'.trace) ∧
      Call.ResetVersion ∉ ex'.trace) := by
  constructor
  · refine ⟨_, rfl, rfl, rfl, ?_⟩
    obtain ⟨new, htr, hgo, -, hreset, hcases⟩ :=
      commit_error_aborts sampleEnvBlockFails sampleExecutor sampleBlock (Err.other 1) _ rfl
    have hnew : [Call.PutTxMetas 1 [⟨10⟩, ⟨11⟩, ⟨12⟩] (Hash.ofNat 2),
          Call.PutReceipt 1 (Hash.ofNat 10) ⟨20⟩, Call.PutReceipt 1 (Hash.ofNat 11) ⟨21⟩,
          Call.PutReceipt 1 (Hash.ofNat 12) ⟨22⟩,
          Call.StateCommit 1, Call.CommitBlock 1 sampleBlock] = new := htr
    subst hnew
    refine ⟨?_, hgo, hreset⟩
    rcases hcases with hno | ⟨bh, -, -, -, -, hcb, -⟩
    · exact hno
    · exact absurd hcb (fun hx => Option.noConfusion hx)
  · refine ⟨_, rfl, rfl, rfl, ?_⟩
    obtain ⟨new, htr, hgo, -, hreset, hcases⟩ :=
      commit_error_aborts sampleEnv sampleExecutor sampleBlockTwo Err.errReceiptNumInvalid _ rfl
    have hnew : [Call.PutTxMetas 2 [⟨10⟩, ⟨11⟩, ⟨12⟩] (Hash.ofNat 2)] = new := htr
    subst hnew
    refine ⟨?_, hgo, hreset⟩
    rcases hcases with hno | ⟨bh, -, -, hrs, -⟩
    · exact hno
    · exact absurd (hrs [⟨30⟩, ⟨31⟩] rfl).1 (by decide)

/-! ### commit returns nil -/

theorem commit_ok (env : Env) (ex : Executor) (block : Block) (bh : Hash)
    (hb : block.Hash = some bh)
    (h1 : env.PutTxMetas ex.trace (env.Height block) block.Transactions bh = none)
    (h2 : ∀ rs, ex.receiptsCache (env.Height block) = some rs →
      block.Transactions.length = rs.length ∧
      ∀ i tx rp, block.Transactions[i]? = some tx → rs[i]? = some rp →
        env.PutReceipt
          (ex.trace ++ [Call.PutTxMetas (env.Height block) block.Transactions bh] ++
            receiptCalls env (env.Height block) (block.Transactions.take i) (rs.take i))
          (env.Height block) (env.TxHash tx) rp = none)
    (h3 : (env.StateCommit
      (ex.trace ++ [Call.PutTxMetas (env.Height block) block.Transactions bh] ++
        receiptCalls env (env.Height block) block.Transactions
          ((ex.receiptsCache (env.Height block)).getD []))
      (env.Height block)).2 = none)
    (h4 : env.CommitBlock
      (ex.trace ++ [Call.PutTxMetas (env.Height block) block.Transactions bh] ++
        receiptCalls env (env.Height block) block.Transactions
          ((ex.receiptsCache (env.Height block)).getD []) ++
        [Call.StateCommit (env.Height block)])
      (env.Height block) block = none)
    (h5 : env.CommitBatch
      (ex.trace ++ [Call.PutTxMetas (env.Height block) block.Transactions bh] ++
        receiptCalls env (env.Height block) block.Transactions
          ((ex.receiptsCache (env.Height block)).getD []) ++
        [Call.StateCommit (env.Height block), Call.CommitBlock (env.Height block) block])
      (env.Height block) = none) :
    ∃ ex', commit env ex block = some (none, ex') ∧
      ex'.trace = ex.trace ++
        ([Call.PutTxMetas (env.Height block) block.Transactions bh] ++
          receiptCalls env (env.Height block) block.Transactions
            ((ex.receiptsCache (env.Height block)).getD []) ++
          [Call.StateCommit (env.Height block), Call.CommitBlock (env.Height block) block,
            Call.CommitBatch (env.Height block)] ++
          [Call.GoPost block, Call.ResetVersion]) := by
  rw [commit_unfold env ex block bh hb, h1]
  dsimp only
  have hrec : ∃ ex2, commitReceipts env
        (ex.record (Call.PutTxMetas (env.Height block) block.Transactions bh)) block =
        some (none, ex2) ∧
      ex2.trace = ex.trace ++ [Call.PutTxMetas (env.Height block) block.Transactions bh] ++
        receiptCalls env (env.Height block) block.Transactions
          ((ex.receiptsCache (env.Height block)).getD []) := by
    unfold commitReceipts
    cases hc : ex.receiptsCache (env.Height block) with
    | none =>
      have hc' : (ex.record (Call.PutTxMetas (env.Height block) block.Transactions bh)).receiptsCache
          (env.Height block) = none := hc
      simp only [hc']
      exact ⟨_, rfl, by simp [Executor.record, receiptCalls]⟩
    | some rs =>
      have hc' : (ex.record (Call.PutTxMetas (env.Height block) block.Transactions bh)).receiptsCache
          (env.Height block) = some rs := hc
      obtain ⟨hlen, hput⟩ := h2 rs hc
      have := persistReceipts_ok env
        (ex.record (Call.PutTxMetas (env.Height block) block.Transactions bh))
        block.Transactions rs (env.Height block) hlen hput
      simp only [hc', this]
      exact ⟨_, rfl, by simp [Executor.record, Executor.cacheDelete]⟩
  obtain ⟨ex2, hr, ht2⟩ := hrec
  rw [hr]
  dsimp only
  rw [← ht2] at h3 h4 h5
  unfold commitState stateCommit commitBlock
  have h3' : env.StateCommit ex2.trace (env.Height block) =
      ((env.StateCommit ex2.trace (env.Height block)).1, none) := by
    rw [← h3]
  rw [h3']
  dsimp only
  rw [record_trace, h4]
  dsimp only
  rw [record_trace, record_trace, List.append_assoc]
  simp only [List.singleton_append, h5]
  have hb' : block.Hash = some bh := hb
  rw [hb']
  dsimp only
  refine ⟨_, rfl, ?_⟩
  simp [Executor.record, Executor.log, ht2]

/-- C5, counterexample: the sample commit returns nil, and in one of its runs
`resetVersion` takes effect before the goroutine posts the event; the claimed
sequence has the event posted before the reset. -/
theorem commit_post_after_reset :
    ∃ ex', commit sampleEnv sampleExecutor sampleBlock = some (none, ex') ∧
      [Call.PutTxMetas 1 [⟨10⟩, ⟨11⟩, ⟨12⟩] (Hash.ofNat 2),
        Call.PutReceipt 1 (Hash.ofNat 10) ⟨20⟩, Call.PutReceipt 1 (Hash.ofNat 11) ⟨21⟩,
        Call.PutReceipt 1 (Hash.ofNat 12) ⟨22⟩,
        Call.StateCommit 1, Call.CommitBlock 1 sampleBlock, Call.CommitBatch 1,
        Call.ResetVersion, Call.Post sampleBlock] ∈ schedules ex'.trace :=
  ⟨_, rfl, by decide⟩

/-- C5, amended: when `block.Hash()` is stored and every step returns nil (the
tx metas, each cached receipt with the count matching, the state commit, the
chain, the flush), `commit` returns nil and the calls it made are exactly, in
this order: `PutTxMetas`, the `PutReceipt` calls of the cached receipts (none
when the cache has no entry for the height), `StateCommit`, `CommitBlock`,
`CommitBatch`, the `go` statement that starts one goroutine posting the block,
`ResetVersion`. The `Post` of that goroutine takes effect once, after the flush,
either before or after `ResetVersion`: these are the only two runs. -/
theorem commit_success_order (env : Env) (ex : Executor) (block : Block) (bh : Hash)
    (hb : block.Hash = some bh)
    (h1 : env.PutTxMetas ex.trace (env.Height block) block.Transactions bh = none)
    (h2 : ∀ rs, ex.receiptsCache (env.Height block) = some rs →
      block.Transactions.length = rs.length ∧
      ∀ i tx rp, block.Transactions[i]? = some tx → rs[i]? = some rp →
        env.PutReceipt
          (ex.trace ++ [Call.PutTxMetas (env.Height block) block.Transactions bh] ++
            receiptCalls env (env.Height block) (block.Transactions.take i) (rs.take i))
          (env.Height block) (env.TxHash tx) rp = none)
    (h3 : (env.StateCommit
      (ex.trace ++ [Call.PutTxMetas (env.Height block) block.Transactions bh] ++
        receiptCalls env (env.Height block) block.Transactions
          ((ex.receiptsCache (env.Height block)).getD []))
      (env.Height block)).2 = none)
    (h4 : env.CommitBlock
      (ex.trace ++ [Call.PutTxMetas (env.Height block) block.Transactions bh] ++
        receiptCalls env (env.Height block) block.Transactions
          ((ex.receiptsCache (env.Height block)).getD []) ++
        [Call.StateCommit (env.Height block)])
      (env.Height block) block = none)
    (h5 : env.CommitBatch
      (ex.trace ++ [Call.PutTxMetas (env.Height block) block.Transactions bh] ++
        receiptCalls env (env.Height block) block.Transactions
          ((ex.receiptsCache (env.Height block)).getD []) ++
        [Call.StateCommit (env.Height block), Call.CommitBlock (env.Height block) block])
      (env.Height block) = none) :
    ∃ ex', commit env ex block = some (none, ex') ∧
      ex'.trace = ex.trace ++
        ([Call.PutTxMetas (env.Height block) block.Transactions bh] ++
          receiptCalls env (env.Height block) block.Transactions
            ((ex.receiptsCache (env.Height block)).getD []) ++
          [Call.StateCommit (env.Height block), Call.CommitBlock (env.Height block) block,
            Call.CommitBatch (env.Height block)] ++
          [Call.GoPost block, Call.ResetVersion]) ∧
      schedules
        ([Call.PutTxMetas (env.Height block) block.Transactions bh] ++
          receiptCalls env (env.Height block) block.Transactions
            ((ex.receiptsCache (env.Height block)).getD []) ++
          [Call.StateCommit (env.Height block), Call.CommitBlock (env.Height block) block,
            Call.CommitBatch (env.Height block)] ++
          [Call.GoPost block, Call.ResetVersion]) =
        [[Call.PutTxMetas (env.Height block) block.Transactions bh] ++
            receiptCalls env (env.Height block) block.Transactions
              ((ex.receiptsCache (env.Height block)).getD []) ++
            [Call.StateCommit (env.Height block), Call.CommitBlock (env.Height block) block,
              Call.CommitBatch (env.Height block)] ++
            [Call.Post block, Call.ResetVersion],
          [Call.PutTxMetas (env.Height block) block.Transactions bh] ++
            receiptCalls env (env.Height block) block.Transactions
              ((ex.receiptsCache (env.Height block)).getD []) ++
            [Call.StateCommit (env.Height block), Call.CommitBlock (env.Height block) block,
              Call.CommitBatch (env.Height block)] ++
            [Call.ResetVersion, Call.Post block]] := by
  obtain ⟨ex', hc, htr⟩ := commit_ok env ex block bh hb h1 h2 h3 h4 h5
  refine ⟨ex', hc, htr, ?_⟩
  have hst : ∀ c ∈ [Call.PutTxMetas (env.Height block) block.Transactions bh] ++
      receiptCalls env (env.Height block) block.Transactions
        ((ex.receiptsCache (env.Height block)).getD []) ++
      [Call.StateCommit (env.Height block), Call.CommitBlock (env.Height block) block,
        Call.CommitBatch (env.Height block)], c.isStoreCall = true := by
    intro c hc
    rcases List.mem_append.1 hc with hc | hc
    · rcases List.mem_append.1 hc with hc | hc
      · have : c = Call.PutTxMetas (env.Height block) block.Transactions bh := by
          simpa using hc
        subst this
        rfl
      · exact receiptCalls_store env _ _ _ c hc
    · have : c = Call.StateCommit (env.Height block) ∨
          c = Call.CommitBlock (env.Height block) block ∨
          c = Call.CommitBatch (env.Height block) := by simpa using hc
      rcases this with rfl | rfl | rfl <;> rfl
  rw [schedules_store_append _ hst]
  rfl

theorem commit_success_order_witness :
    ∃ ex', commit sampleEnv sampleExecutor sampleBlock = some (none, ex') ∧
      ex'.trace =
        [Call.PutTxMetas 1 [⟨10⟩, ⟨11⟩, ⟨12⟩] (Hash.ofNat 2),
          Call.PutReceipt 1 (Hash.ofNat 10) ⟨20⟩, Call.PutReceipt 1 (Hash.ofNat 11) ⟨21⟩,
          Call.PutReceipt 1 (Hash.ofNat 12) ⟨22⟩,
          Call.StateCommit 1, Call.CommitBlock 1 sampleBlock, Call.CommitBatch 1,
          Call.GoPost sampleBlock, Call.ResetVersion] ∧
      schedules
          [Call.PutTxMetas 1 [⟨10⟩, ⟨11⟩, ⟨12⟩] (Hash.ofNat 2),
            Call.PutReceipt 1 (Hash.ofNat 10) ⟨20⟩, Call.PutReceipt 1 (Hash.ofNat 11) ⟨21⟩,
            Call.PutReceipt 1 (Hash.ofNat 12) ⟨22⟩,
            Call.StateCommit 1, Call.CommitBlock 1 sampleBlock, Call.CommitBatch 1,
            Call.GoPost sampleBlock, Call.ResetVersion] =
        [[Call.PutTxMetas 1 [⟨10⟩, ⟨11⟩, ⟨12⟩] (Hash.ofNat 2),
            Call.PutReceipt 1 (Hash.ofNat 10) ⟨20⟩, Call.PutReceipt 1 (Hash.ofNat 11) ⟨21⟩,
            Call.PutReceipt 1 (Hash.ofNat 12) ⟨22⟩,
            Call.StateCommit 1, Call.CommitBlock 1 sampleBlock, Call.CommitBatch 1,
            Call.Post sampleBlock, Call.ResetVersion],
          [Call.PutTxMetas 1 [⟨10⟩, ⟨11⟩, ⟨12⟩] (Hash.ofNat 2),
            Call.PutReceipt 1 (Hash.ofNat 10) ⟨20⟩, Call.PutReceipt 1 (Hash.ofNat 11) ⟨21⟩,
            Call.PutReceipt 1 (Hash.ofNat 12) ⟨22⟩,
            Call.StateCommit 1, Call.CommitBlock 1 sampleBlock, Call.CommitBatch 1,
            Call.ResetVersion, Call.Post sampleBlock]] :=
  commit_success_order sampleEnv sampleExecutor sampleBlock (Hash.ofNat 2) rfl rfl
    (fun rs hrs => by
      have : rs = [⟨20⟩, ⟨21⟩, ⟨22⟩] := by
        have h : some [(⟨20⟩ : Receipt), ⟨21⟩, ⟨22⟩] = some rs := hrs
        exact (Option.some.inj h).symm
      subst this
      exact ⟨rfl, fun _ _ _ _ _ => rfl⟩)
    rfl rfl rfl

/-- C9: when `commit` returns nil the receipts cache has no entry for the
block height and is unchanged at every other height; and when the cache has no
entry for the height before the call, `commit` makes no `PutReceipt` call and,
once `persistTxs` has returned nil, goes straight on to `StateCommit`. -/
theorem commit_cache_eviction (env : Env) (ex : Executor) (block : Block) :
    (∀ ex', commit env ex block = some (none, ex') →
      ex'.receiptsCache (env.Height block) = none ∧
      ∀ k, k ≠ env.Height block → ex'.receiptsCache k = ex.receiptsCache k) ∧
    (ex.receiptsCache (env.Height block) = none →
      ∀ r ex', commit env ex block = some (r, ex') →
        ∃ new, ex'.trace = ex.trace ++ new ∧
          (∀ k th rp, Call.PutReceipt k th rp ∉ new) ∧
          (∀ bh, block.Hash = some bh →
            env.PutTxMetas ex.trace (env.Height block) block.Transactions bh = none →
            ∃ rest, new = Call.PutTxMetas (env.Height block) block.Transactions bh ::
              Call.StateCommit (env.Height block) :: rest)) := by
  constructor
  · intro ex' h
    obtain ⟨bh, hb⟩ := commit_hash_some env ex block _ h
    rw [commit_unfold env ex block bh hb] at h
    split at h
    · exact absurd h (by simp)
    · split at h
      · exact absurd h (by simp)
      · exact absurd h (by simp)
      · rename_i ex2 hr
        obtain ⟨-, -, hok, -⟩ := commitReceipts_frame _ _ _ _ _ hr
        obtain ⟨-, hn, hk⟩ := hok rfl
        obtain ⟨hcache, -⟩ := commitState_cases _ _ _ _ _ h
        rw [hcache]
        exact ⟨hn, hk⟩
  · intro hnone r ex' h
    obtain ⟨bh, hb⟩ := commit_hash_some env ex block _ h
    rw [commit_unfold env ex block bh hb] at h
    split at h
    · rename_i err hput
      simp only [Option.some.injEq, Prod.mk.injEq] at h
      obtain ⟨-, rfl⟩ := h
      refine ⟨[Call.PutTxMetas (env.Height block) block.Transactions bh], rfl, by simp, ?_⟩
      intro bh' hb' hput'
      rw [hb] at hb'
      cases hb'
      rw [hput] at hput'
      exact absurd hput' (by simp)
    · have hnone' : (ex.record (Call.PutTxMetas (env.Height block) block.Transactions
          bh)).receiptsCache (env.Height block) = none := hnone
      split at h
      · exact absurd h (by simp)
      · rename_i err ex2 hr
        obtain ⟨-, -, -, hskip⟩ := commitReceipts_frame _ _ _ _ _ hr
        exact absurd (hskip hnone').1 (by simp)
      · rename_i ex2 hr
        obtain ⟨-, -, -, hskip⟩ := commitReceipts_frame _ _ _ _ _ hr
        obtain ⟨-, rfl⟩ := hskip hnone'
        obtain ⟨-, hcase⟩ := commitState_cases _ _ _ _ _ h
        have hbh : ∀ bh', block.Hash = some bh' → bh' = bh := by
          intro bh' hb'
          rw [hb] at hb'
          exact (Option.some.inj hb').symm
        rcases hcase with ⟨e', -, -, -, ht⟩ | ⟨e', -, -, -, -, ht⟩ |
          ⟨e', -, -, -, -, -, ht⟩ | ⟨-, -, -, -, ht⟩
        all_goals
          refine ⟨_, by rw [ht, record_trace, List.append_assoc], by simp, ?_⟩
          intro bh' hb' _
          rw [hbh bh' hb']
          exact ⟨_, rfl⟩

theorem commit_cache_eviction_witness :
    (∃ ex', commit sampleEnv sampleExecutor sampleBlock = some (none, ex') ∧
      ex'.receiptsCache (sampleEnv.Height sampleBlock) = none ∧
      ∀ k, k ≠ sampleEnv.Height sampleBlock →
        ex'.receiptsCache k = sampleExecutor.receiptsCache k) ∧
    (∃ r ex', commit sampleEnv sampleExecutorNoCache sampleBlock = some (r, ex') ∧
      ∃ new, ex'.trace = sampleExecutorNoCache.trace ++ new ∧
        (∀ k th rp, Call.PutReceipt k th rp ∉ new) ∧
        (∀ bh, sampleBlock.Hash = some bh →
          sampleEnv.PutTxMetas sampleExecutorNoCache.trace (sampleEnv.Height sampleBlock)
            sampleBlock.Transactions bh = none →
          ∃ rest, new = Call.PutTxMetas (sampleEnv.Height sampleBlock)
            sampleBlock.Transactions bh ::
              Call.StateCommit (sampleEnv.Height sampleBlock) :: rest)) :=
  ⟨⟨_, rfl, (commit_cache_eviction sampleEnv sampleExecutor sampleBlock).1 _ rfl⟩,
    ⟨_, _, rfl,
      (commit_cache_eviction sampleEnv sampleExecutorNoCache sampleBlock).2 rfl _ _ rfl⟩⟩

/-! ### The state root in commit -/

/-- C4, counterexample: the sample block carries header root 5, the state
commit returns root 7 whatever was called before, and still `commit` returns
nil and calls `CommitBatch` for the height. -/
theorem commit_root_mismatch_flushes :
    (∀ tr, (sampleEnv.StateCommit tr (sampleEnv.Height sampleBlock)).1 ≠
      sampleBlock.Header.Root) ∧
    ∃ ex', commit sampleEnv sampleExecutor sampleBlock = some (none, ex') ∧
      Call.CommitBatch (sampleEnv.Height sampleBlock) ∈ ex'.trace :=
  ⟨fun _ => by show Hash.ofNat 7 ≠ Hash.ofNat 5; decide, _, rfl, by decide⟩

theorem persistReceiptsLoop_root (env : Env) (f : List Call → Nat → Hash)
    (txs : List Transaction) (height : Nat) :
    ∀ (rest : List Receipt) (idx : Nat) (ex : Executor),
      persistReceiptsLoop
        { env with StateCommit := fun tr h => (f tr h, (env.StateCommit tr h).2) }
        txs height idx rest ex =
      persistReceiptsLoop env txs height idx rest ex := by
  intro rest
  induction rest with
  | nil => intro idx ex; rfl
  | cons rp rest ih =>
    intro idx ex
    rw [persistReceiptsLoop, persistReceiptsLoop]
    cases txs[idx]? with
    | none => rfl
    | some tx =>
      dsimp only
      cases env.PutReceipt ex.trace height (env.TxHash tx) rp with
      | some err => rfl
      | none => exact ih _ _

/-- C4, amended: `commit` never looks at the root that the state commit
returns. Replacing that root by any other value (the error it returns kept as it
is) changes neither the result of `commit` nor its calls, its log or the
cache. -/
theorem commit_ignores_root (env : Env) (f : List Call → Nat → Hash) (ex : Executor)
    (block : Block) :
    commit { env with StateCommit := fun tr h => (f tr h, (env.StateCommit tr h).2) }
      ex block = commit env ex block := by
  have hrec : ∀ ex1, commitReceipts
      { env with StateCommit := fun tr h => (f tr h, (env.StateCommit tr h).2) } ex1 block =
      commitReceipts env ex1 block := by
    intro ex1
    unfold commitReceipts persistReceipts
    dsimp only
    cases ex1.receiptsCache (env.Height block) with
    | none => rfl
    | some rs =>
      dsimp only
      rw [persistReceiptsLoop_root]
  have hstate : ∀ ex2, commitState
      { env with StateCommit := fun tr h => (f tr h, (env.StateCommit tr h).2) } ex2 block =
      commitState env ex2 block := by
    intro ex2
    unfold commitState stateCommit commitBlock
    dsimp only
    rcases hs : env.StateCommit ex2.trace (env.Height block) with ⟨root, err⟩
    cases err <;> rfl
  unfold commit
  have hp : persistTxs
      { env with StateCommit := fun tr h => (f tr h, (env.StateCommit tr h).2) } ex block =
      persistTxs env ex block := rfl
  rw [hp]
  cases persistTxs env ex block with
  | none => rfl
  | some p =>
    obtain ⟨r, ex1⟩ := p
    cases r with
    | some e => rfl
    | none =>
      dsimp only
      rw [hrec]
      cases commitReceipts env ex1 block with
      | none => rfl
      | some q =>
        obtain ⟨r2, ex2⟩ := q
        cases r2 with
        | some e => rfl
        | none => exact hstate ex2

/-! ### Block digest -/

/-- C6: the hash of `NewBlock(h, txs, td)` is the hash of the header `h`, so
blocks built from the same header have the same hash whatever their transactions
and total difficulty. -/
theorem NewBlock_hash_eq_header_hash (c : Codec) (h : Header) (txs : List Transaction)
    (td : Option Int) :
    (NewBlock c h txs td).Hash = some (h.Hash c) ∧
    ∀ (txs' : List Transaction) (td' : Option Int),
      (NewBlock c h txs td).Hash = (NewBlock c h txs' td').Hash :=
  ⟨rfl, fun _ _ => rfl⟩

/-! ### Peer limit of the route table -/

/-- C10, counterexample: a table with room for one peer whose peer store holds
one peer (`p2`) and whose routing table holds `p1`, for which the store has no
entry. `AddPeer(p1, addr)` passes the guard because `HasPeer(p1)` holds, and the
peer store ends with two peers. -/
theorem peer_limit_exceeded :
    ((sampleTableStale.Peers.length : Int) ≤ sampleTableStale.maxPeers) ∧
    (sampleTableStale.run sampleLib [PeerOp.AddPeer "p1" "/ip4/10.0.0.1/tcp/1"]).Peers =
      ["p2", "p1"] ∧
    ¬ (((sampleTableStale.run sampleLib
          [PeerOp.AddPeer "p1" "/ip4/10.0.0.1/tcp/1"]).Peers.length : Int) ≤
      (sampleTableStale.run sampleLib [PeerOp.AddPeer "p1" "/ip4/10.0.0.1/tcp/1"]).maxPeers) := by
  decide

theorem storeAddAddrs_keys (store : List (PeerID × List Multiaddr)) (pid : PeerID)
    (addrs : List Multiaddr) (q : PeerID) :
    q ∈ (storeAddAddrs store pid addrs).map Prod.fst ↔ q = pid ∨ q ∈ store.map Prod.fst := by
  unfold storeAddAddrs
  by_cases h : pid ∈ store.map Prod.fst
  · rw [if_pos h]
    have hkeys : (store.map (fun e =>
        if e.1 = pid then (e.1, e.2 ++ addrs.filter (fun a => decide (a ∉ e.2))) else e)).map
        Prod.fst = store.map Prod.fst := by
      rw [List.map_map]
      apply List.map_congr_left
      intro e _
      by_cases he : e.1 = pid <;> simp [he]
    rw [hkeys]
    constructor
    · intro hq; exact Or.inr hq
    · rintro (rfl | hq)
      · exact h
      · exact hq
  · rw [if_neg h]
    simp only [List.map_append, List.map_cons, List.map_nil, List.mem_append, List.mem_singleton]
    tauto

theorem storeClearAddrs_keys (store : List (PeerID × List Multiaddr)) (pid q : PeerID) :
    q ∈ (storeClearAddrs store pid).map Prod.fst ↔ q ≠ pid ∧ q ∈ store.map Prod.fst := by
  unfold storeClearAddrs
  simp only [List.mem_map, List.mem_filter, decide_eq_true_eq]
  constructor
  · rintro ⟨e, ⟨he, hne⟩, rfl⟩
    exact ⟨hne, e, he, rfl⟩
  · rintro ⟨hne, e, he, rfl⟩
    exact ⟨e, ⟨he, hne⟩, rfl⟩

theorem dedup_length_add (store : List (PeerID × List Multiaddr)) (pid : PeerID)
    (addrs : List Multiaddr) :
    (pid ∈ store.map Prod.fst →
      ((storeAddAddrs store pid addrs).map Prod.fst).dedup.length =
        (store.map Prod.fst).dedup.length) ∧
    ((storeAddAddrs store pid addrs).map Prod.fst).dedup.length ≤
      (store.map Prod.fst).dedup.length + 1 := by
  have hfin : ((storeAddAddrs store pid addrs).map Prod.fst).toFinset =
      insert pid (store.map Prod.fst).toFinset := by
    ext q
    simp only [List.mem_toFinset, Finset.mem_insert]
    exact storeAddAddrs_keys store pid addrs q
  rw [← List.card_toFinset, ← List.card_toFinset, hfin]
  constructor
  · intro h
    rw [Finset.insert_eq_of_mem (List.mem_toFinset.2 h)]
  · exact Finset.card_insert_le _ _

theorem dedup_length_clear (store : List (PeerID × List Multiaddr)) (pid : PeerID) :
    ((storeClearAddrs store pid).map Prod.fst).dedup.length ≤
      (store.map Prod.fst).dedup.length := by
  rw [← List.card_toFinset, ← List.card_toFinset]
  apply Finset.card_le_card
  intro q hq
  rw [List.mem_toFinset] at hq ⊢
  exact ((storeClearAddrs_keys store pid q).1 hq).2

/-- Adding addresses for a peer that is in the routing table, or while the store
is not full, keeps the table within its limit. -/
theorem withinLimit_add (lib : Lib)
    (hU : ∀ rt p q, q ∈ lib.Update rt p → q = p ∨ q ∈ rt)
    (table : RouteTable) (pid : PeerID) (addrs : List Multiaddr)
    (hin : table.WithinLimit)
    (hguard : pid ∈ table.routeTable ∨ (table.Peers.length : Int) < table.maxPeers) :
    (RouteTable.update lib
      { table with peerStore := storeAddAddrs table.peerStore pid addrs } pid).WithinLimit := by
  obtain ⟨hsub, hcount⟩ := hin
  obtain ⟨hsame, hle⟩ := dedup_length_add table.peerStore pid addrs
  constructor
  · intro q hq
    have hq' : q = pid ∨ q ∈ table.routeTable := hU _ _ _ hq
    show q ∈ ((storeAddAddrs table.peerStore pid addrs).map Prod.fst).dedup
    rw [List.mem_dedup, storeAddAddrs_keys]
    rcases hq' with rfl | hq'
    · exact Or.inl rfl
    · have := hsub q hq'
      unfold RouteTable.Peers at this
      rw [List.mem_dedup] at this
      exact Or.inr this
  · show ((((storeAddAddrs table.peerStore pid addrs).map Prod.fst).dedup.length : Nat) : Int) ≤
      table.maxPeers
    unfold RouteTable.Peers at hcount hguard
    rcases hguard with hmem | hroom
    · have hp := hsub pid hmem
      unfold RouteTable.Peers at hp
      rw [List.mem_dedup] at hp
      rw [hsame hp]
      exact hcount
    · omega

theorem withinLimit_AddPeerWithAddrs (lib : Lib)
    (hU : ∀ rt p q, q ∈ lib.Update rt p → q = p ∨ q ∈ rt)
    (table : RouteTable) (pid : PeerID) (addrs : List Multiaddr) (hin : table.WithinLimit) :
    (table.AddPeerWithAddrs lib pid addrs).WithinLimit := by
  unfold RouteTable.AddPeerWithAddrs
  by_cases h1 : pid = table.localID
  · rw [if_pos h1]; exact hin
  · rw [if_neg h1]
    by_cases h2 : table.HasPeer pid = true
    · have : (!table.HasPeer pid) = false := by simp [h2]
      rw [this]
      simp only [Bool.false_eq_true, if_false]
      apply withinLimit_add lib hU table pid addrs hin
      left
      simpa [RouteTable.HasPeer] using h2
    · have : (!table.HasPeer pid) = true := by simpa using h2
      rw [this]
      simp only [if_true]
      by_cases h3 : (table.Peers.length : Int) ≥ table.maxPeers
      · rw [if_pos h3]; exact hin
      · rw [if_neg h3]
        apply withinLimit_add lib hU table pid addrs hin
        right
        omega

theorem withinLimit_AddPeer (lib : Lib)
    (hU : ∀ rt p q, q ∈ lib.Update rt p → q = p ∨ q ∈ rt)
    (table : RouteTable) (pid : PeerID) (addr : Multiaddr) (hin : table.WithinLimit) :
    (table.AddPeer lib pid addr).WithinLimit := by
  unfold RouteTable.AddPeer
  by_cases h1 : pid = table.localID
  · rw [if_pos h1]; exact hin
  · rw [if_neg h1]
    by_cases h2 : (!table.HasPeer pid &&
        decide ((table.Peers.length : Int) ≥ table.maxPeers)) = true
    · rw [if_pos h2]; exact hin
    · rw [if_neg h2]
      apply withinLimit_add lib hU table pid [addr] hin
      simp only [Bool.and_eq_true, Bool.not_eq_true', decide_eq_true_eq, not_and] at h2
      by_cases h3 : table.HasPeer pid = true
      · left
        simpa [RouteTable.HasPeer] using h3
      · right
        have := h2 (by simpa using h3)
        omega

theorem withinLimit_AddPeerInfo (lib : Lib)
    (hU : ∀ rt p q, q ∈ lib.Update rt p → q = p ∨ q ∈ rt)
    (table : RouteTable) (prettyID : String) (addrStr : List String)
    (hin : table.WithinLimit) :
    (table.AddPeerInfo lib prettyID addrStr).2.WithinLimit := by
  unfold RouteTable.AddPeerInfo
  split
  · exact hin
  · split
    · exact hin
    · split
      · exact hin
      · split
        · exact hin
        · exact withinLimit_AddPeerWithAddrs lib hU table _ _ hin

theorem withinLimit_AddPeers (lib : Lib)
    (hU : ∀ rt p q, q ∈ lib.Update rt p → q = p ∨ q ∈ rt) :
    ∀ (peers : List (String × List String)) (table : RouteTable), table.WithinLimit →
      (table.AddPeers lib peers).2.WithinLimit := by
  intro peers
  induction peers with
  | nil => intro table hin; exact hin
  | cons v rest ih =>
    intro table hin
    have h1 := withinLimit_AddPeerInfo lib hU table v.1 v.2 hin
    unfold RouteTable.AddPeers
    split
    · rename_i table1 heq
      rw [heq] at h1
      exact h1
    · rename_i table1 heq
      rw [heq] at h1
      exact ih table1 h1

theorem withinLimit_RemovePeer (table : RouteTable) (pid : PeerID) (hin : table.WithinLimit) :
    (table.RemovePeer pid).WithinLimit := by
  obtain ⟨hsub, hcount⟩ := hin
  constructor
  · intro q hq
    have hq' : q ∈ table.routeTable.filter (fun p => decide (p ≠ pid)) := hq
    rw [List.mem_filter] at hq'
    obtain ⟨hq1, hq2⟩ := hq'
    have hne : q ≠ pid := by simpa using hq2
    have := hsub q hq1
    unfold RouteTable.Peers at this
    rw [List.mem_dedup] at this
    show q ∈ ((storeClearAddrs table.peerStore pid).map Prod.fst).dedup
    rw [List.mem_dedup, storeClearAddrs_keys]
    exact ⟨hne, this⟩
  · have := dedup_length_clear table.peerStore pid
    show ((((storeClearAddrs table.peerStore pid).map Prod.fst).dedup.length : Nat) : Int) ≤
      table.maxPeers
    unfold RouteTable.Peers at hcount
    omega

theorem withinLimit_apply (lib : Lib)
    (hU : ∀ rt p q, q ∈ lib.Update rt p → q = p ∨ q ∈ rt)
    (table : RouteTable) (op : PeerOp) (hin : table.WithinLimit) :
    (table.apply lib op).WithinLimit := by
  cases op with
  | AddPeer pid addr => exact withinLimit_AddPeer lib hU table pid addr hin
  | AddPeerWithAddrs pid addrs => exact withinLimit_AddPeerWithAddrs lib hU table pid addrs hin
  | AddPeerInfo prettyID addrStr => exact withinLimit_AddPeerInfo lib hU table _ _ hin
  | AddPeers peers => exact withinLimit_AddPeers lib hU peers table hin
  | RemovePeer pid => exact withinLimit_RemovePeer table pid hin

theorem withinLimit_run (lib : Lib)
    (hU : ∀ rt p q, q ∈ lib.Update rt p → q = p ∨ q ∈ rt) :
    ∀ (ops : List PeerOp) (table : RouteTable), table.WithinLimit →
      (table.run lib ops).WithinLimit := by
  intro ops
  induction ops with
  | nil => intro table hin; exact hin
  | cons op rest ih =>
    intro table hin
    exact ih _ (withinLimit_apply lib hU table op hin)

theorem peersWithAddrs_le (table : RouteTable) :
    table.PeersWithAddrs.length ≤ table.Peers.length := by
  unfold RouteTable.PeersWithAddrs RouteTable.Peers
  rw [← List.card_toFinset, ← List.card_toFinset]
  apply Finset.card_le_card
  intro q hq
  rw [List.mem_toFinset] at hq ⊢
  exact (List.Sublist.map _ (List.filter_sublist _)).subset hq

/-- C10, amended: from a table in which every peer of the routing table has an
entry in the peer store and the peer store holds at most `maxPeers` peers, any
sequence of `AddPeer`, `AddPeerWithAddrs`, `AddPeerInfo`, `AddPeers` and
`RemovePeer` calls leaves a table of the same kind: the peer store holds at most
`maxPeers` peers, counted as `Peers()` counts them (every entry) and so also
counted by the peers with at least one address. `Update` of the routing table
is taken to add no peer but the one it is given. -/
theorem peer_limit_kept (lib : Lib)
    (hU : ∀ rt p q, q ∈ lib.Update rt p → q = p ∨ q ∈ rt)
    (table : RouteTable) (ops : List PeerOp)
    (hsub : ∀ q, q ∈ table.routeTable → q ∈ table.Peers)
    (hcount : (table.Peers.length : Int) ≤ table.maxPeers) :
    (∀ q, q ∈ (table.run lib ops).routeTable → q ∈ (table.run lib ops).Peers) ∧
    ((table.run lib ops).Peers.length : Int) ≤ (table.run lib ops).maxPeers ∧
    ((table.run lib ops).PeersWithAddrs.length : Int) ≤ (table.run lib ops).maxPeers := by
  obtain ⟨h1, h2⟩ := withinLimit_run lib hU ops table ⟨hsub, hcount⟩
  refine ⟨h1, h2, ?_⟩
  have := peersWithAddrs_le (table.run lib ops)
  omega

theorem peer_limit_kept_witness :
    (∀ q, q ∈ (sampleTable.run sampleLib sampleOps).routeTable →
      q ∈ (sampleTable.run sampleLib sampleOps).Peers) ∧
    ((sampleTable.run sampleLib sampleOps).Peers.length : Int) ≤
      (sampleTable.run sampleLib sampleOps).maxPeers ∧
    ((sampleTable.run sampleLib sampleOps).PeersWithAddrs.length : Int) ≤
      (sampleTable.run sampleLib sampleOps).maxPeers :=
  peer_limit_kept sampleLib
    (by
      intro rt p q hq
      by_cases h : p ∈ rt
      · right
        simpa [sampleLib, h] using hq
      · have : q ∈ p :: rt := by simpa [sampleLib, h] using hq
        rcases List.mem_cons.1 this with rfl | h'
        · exact Or.inl rfl
        · exact Or.inr h')
    sampleTable sampleOps (by decide) (by decide)

/-! ### Bucket Merkle Tree: aggregation -/

theorem nextLevel_length (p : BMTParams) (level : List Hash) :
    (nextLevel p level).length = nodeCount p level.length := by
  simp [nextLevel]

theorem nodeCount_lt (p : BMTParams) (n : Nat) (hf : 2 ≤ p.fanout) (hn : 2 ≤ n) :
    nodeCount p n < n := by
  unfold nodeCount
  rw [Nat.div_lt_iff_lt_mul (by omega)]
  obtain ⟨k, rfl⟩ : ∃ k, n = k + 2 := ⟨n - 2, by omega⟩
  have h1 : (k + 2) * p.fanout = k * p.fanout + 2 * p.fanout := by ring
  have h2 : k * 2 ≤ k * p.fanout := Nat.mul_le_mul_left k hf
  omega

theorem aggregateFuel_enough (p : BMTParams) (hf : 2 ≤ p.fanout) :
    ∀ (fuel : Nat) (level : List Hash), level.length ≤ fuel →
      aggregateFuel p fuel level = aggregate p level := by
  intro fuel
  induction fuel using Nat.strong_induction_on with
  | _ fuel ih =>
    intro level hlen
    unfold aggregate
    cases fuel with
    | zero =>
      have h0 : level.length = 0 := by omega
      rw [h0]
    | succ fuel =>
      by_cases h1 : level.length ≤ 1
      · cases hl : level.length with
        | zero => simp [aggregateFuel, h1]
        | succ m => simp [aggregateFuel, h1]
      · obtain ⟨m, hm⟩ : ∃ m, level.length = m + 1 := ⟨level.length - 1, by omega⟩
        have hnext : (nextLevel p level).length < level.length := by
          rw [nextLevel_length]
          exact nodeCount_lt p level.length hf (by omega)
        rw [hm]
        simp only [aggregateFuel, if_neg h1]
        rw [ih fuel (by omega) _ (by omega), ih m (by omega) _ (by omega)]

theorem firstReadError_none (store : KVStore) :
    ∀ idxs : List Nat, (∀ i ∈ idxs, ∃ b, readBucket store i = Except.ok b) →
      firstReadError store idxs = none := by
  intro idxs
  induction idxs with
  | nil => intro _; rfl
  | cons i rest ih =>
    intro h
    obtain ⟨b, hb⟩ := h i (List.mem_cons_self _ _)
    unfold firstReadError
    rw [hb]
    exact ih (fun j hj => h j (List.mem_cons_of_mem _ hj))

theorem affected_lt (p : BMTParams) (d : List (Key × Value)) (i : Nat)
    (h : i ∈ affected p d) : i < p.capacity := by
  unfold affected at h
  exact List.mem_range.1 (List.mem_filter.1 h).1

theorem commit_ok_nonempty (p : BMTParams) (store : KVStore) (batch : Batch)
    (tree : BucketTree) (h : tree.staged ≠ [])
    (hread : ∀ i, i < p.capacity → ∃ b, readBucket store i = Except.ok b) :
    tree.Commit p store batch =
      Except.ok
        (aggregate p (newTable p store tree),
          batch ++ (affected p tree.staged).map (bucketWrite p store tree.staged) ++
            [BatchOp.put (DBKey.table (aggregate p (newTable p store tree)))
              (DBVal.table (newTable p store tree) (aggregate p (newTable p store tree)))],
          { hashTable := newTable p store tree, staged := [] }) := by
  unfold BucketTree.Commit
  rw [if_neg h, firstReadError_none store _
    (fun i hi => hread i (affected_lt p tree.staged i hi))]

/-- Reload after a commit of a non-empty staged delta whose reads went through:
once the batch is flushed, `Init` with the returned root succeeds and gives the
tree the commit left, so the same hash table and the same `Hash()`. -/
theorem init_after_commit (p : BMTParams) (store : KVStore) (tree : BucketTree)
    (h : tree.staged ≠ [])
    (hread : ∀ i, i < p.capacity → ∃ b, readBucket store i = Except.ok b) :
    ∃ R batch' tree', tree.Commit p store [] = Except.ok (R, batch', tree') ∧
      BucketTree.Init p (Batch.Write batch' store) (some R) = Except.ok tree' ∧
      tree'.Hash p = R := by
  refine ⟨_, _, _, commit_ok_nonempty p store [] tree h hread, ?_, rfl⟩
  unfold BucketTree.Init Batch.Write
  rw [List.foldl_append]
  simp [KVStore.applyOp]

/-- Reload after a commit of an empty staged delta on a fresh tree: the commit
writes nothing, no table record exists under the root, and `Init` with that root
fails. -/
theorem init_after_noop_commit (p : BMTParams) :
    (freshTree p).Commit p emptyStore [] =
      Except.ok ((freshTree p).Hash p, [], freshTree p) ∧
    BucketTree.Init p (Batch.Write [] emptyStore) (some ((freshTree p).Hash p)) =
      Except.error BMTErr.StoreFailure := by
  constructor
  · unfold BucketTree.Commit
    exact if_pos rfl
  · rfl

end Tinychain
